import Mathlib

/-
Verification of the persistence core of chat_history_manager.py:
the PostgreSQL backend, the Redis cache backend, and the ChatHistoryManager
facade with its three storage modes (local flat-file, postgres, redis).

Modelling conventions (shallow embedding, translated from the source):
* Timestamps are integers (seconds).  The source stores ISO-8601 strings and
  converts with datetime.fromisoformat / datetime.isoformat, which are mutually
  inverse on the wire format, so the round trip is modelled as the identity.
  timedelta(days=d) is d * 86400 seconds.
* JSON dictionaries are modelled as structures; json.dumps / json.loads round
  trip structured values and this is modelled as the identity on well-formed
  values.  Cached values stored in Redis may be corrupt (written by another
  program, truncated, and so on), which json.loads rejects; this is modelled
  with an explicit corrupt constructor whose parse raises jsonDecodeError.
* The SQL tables are modelled as lists of rows: the conversations table as an
  association list keyed by conversation_id (the primary key), the messages
  table as a list of message rows.  SELECT ... ORDER BY is modelled as a stable
  insertion sort of the filtered rows (the databases tie order is unspecified).
* Redis state: the keys used by the source are chat:<user>:conversations
  (a sorted set) and chat:<cid>:messages (a list).  The two key families are
  disjoint (different fixed suffixes) and each is injective in the embedded id,
  so the model keys the sorted sets directly by user id and the message lists
  directly by conversation id.  A missing list key and an empty list are both
  modelled as [] (llen of a missing key is 0 in Redis).  TTLs and expiry are not
  modelled (expire calls change no observable value in the claims).
* redis.RedisError (connectivity failure) is modelled with a `failing` flag on
  the Redis state: when it is set every client call raises RedisError before
  performing any mutation.  Each try/except redis.RedisError block of the
  source is translated by returning that blocks fallback value on the failing
  branch.  Exceptions that the source does not catch there (json.JSONDecodeError
  from json.loads of a corrupt cached value) are modelled with Except.
* Document fields are modelled as always present (the UI always writes full
  documents); the .get(..., default) fallbacks for absent keys are therefore
  not exercised.
-/

/-- Error class of a Python exception escaping a modelled operation. -/
inductive PyErr where
  | jsonDecodeError
  | redisError
deriving DecidableEq

instance {ε α : Type} [DecidableEq ε] [DecidableEq α] : DecidableEq (Except ε α) := by
  intro a b
  cases a <;> cases b
  case error.error e f => exact decidable_of_iff (e = f) (by simp)
  case ok.ok x y => exact decidable_of_iff (x = y) (by simp)
  all_goals exact isFalse (by simp)

/-- A message dictionary as the UI passes it to save_conversation:
role, content and an ISO time string (modelled as Int). -/
structure Msg where
  role : String
  content : String
  time : Int
deriving DecidableEq

/-- A conversation document (the JSON-like dict of the external interface). -/
structure Doc where
  title : String
  model : String
  messages : List Msg
  created_at : Int
  last_modified : Int
deriving DecidableEq

/-- A message dictionary as returned by get_conversation.  Messages served from
the Redis cache carry the sequence_number key that the cache writers add;
messages served from PostgreSQL do not (the SELECT result is rebuilt without
it), hence the Option. -/
structure RMsg where
  sequence_number : Option Nat
  role : String
  content : String
  time : Int
deriving DecidableEq

/-- A conversation document as returned by get_conversation. -/
structure RDoc where
  title : String
  model : String
  messages : List RMsg
  created_at : Int
  last_modified : Int
deriving DecidableEq

/-- Forget the sequence_number annotation of a returned message. -/
def stripSeq (m : RMsg) : RMsg :=
  { m with sequence_number := none }

/-- Forget the sequence_number annotations of a returned document. -/
def stripSeqDoc (d : RDoc) : RDoc :=
  { d with messages := d.messages.map stripSeq }

/-- Row of the conversations table (primary key conversation_id is the
association-list key). -/
structure ConvRow where
  user_client_id : String
  title : String
  model : String
  created_at : Int
  last_modified : Int
deriving DecidableEq

/-- Row of the messages table. -/
structure MsgRow where
  conversation_id : String
  sequence_number : Nat
  role : String
  content : String
  timestamp : Int
deriving DecidableEq

/-- State of the PostgreSQL database. -/
structure PGSt where
  convs : List (String × ConvRow)
  msgs : List MsgRow
deriving DecidableEq

/-- Metadata record serialized into the chat:<user>:conversations sorted set. -/
structure Meta where
  conversation_id : String
  title : String
  model : String
  created_at : Int
  last_modified : Int
deriving DecidableEq

/-- A sorted-set member: either a well-formed serialized Meta or a corrupt
string that json.loads rejects. -/
inductive MetaVal where
  | ok (m : Meta)
  | corrupt
deriving DecidableEq

/-- A sorted-set entry: member plus score. -/
structure ZEntry where
  val : MetaVal
  score : Int
deriving DecidableEq

/-- A message record serialized into the chat:<cid>:messages list: the cache
writers always add a sequence_number. -/
structure CMsg where
  sequence_number : Nat
  role : String
  content : String
  time : Int
deriving DecidableEq

/-- A message-list member: well formed or corrupt. -/
inductive MsgVal where
  | ok (m : CMsg)
  | corrupt
deriving DecidableEq

/-- State of the Redis server as seen by this client.  failing models
connectivity loss: every command raises redis.RedisError and performs no
mutation while it is set. -/
structure RedisSt where
  failing : Bool
  zsets : String → List ZEntry
  lists : String → List MsgVal

/-- Combined state of the redis-mode manager (PostgreSQL plus Redis). -/
structure St where
  pg : PGSt
  rs : RedisSt

/-- Pointwise update of a string-keyed table. -/
def updFn {α : Type} (f : String → α) (k : String) (v : α) : String → α :=
  fun x => if x = k then v else f x

/-- Number messages with consecutive sequence numbers starting at n
(the enumerate loops of the cache writers). -/
def numberFrom (n : Nat) : List Msg → List CMsg
  | [] => []
  | m :: ms => ⟨n, m.role, m.content, m.time⟩ :: numberFrom (n + 1) ms

/-- Message rows inserted by PostgreSQLBackend.save_conversation for a
conversation, numbered from n (the source always starts at 0). -/
def seqRowsFrom (cid : String) (n : Nat) : List Msg → List MsgRow
  | [] => []
  | m :: ms => ⟨cid, n, m.role, m.content, m.time⟩ :: seqRowsFrom cid (n + 1) ms

/-- The metadata-only document a list result row is rebuilt into
(messages deliberately empty). -/
def metaDoc (r : ConvRow) : Doc :=
  ⟨r.title, r.model, [], r.created_at, r.last_modified⟩

/-- The metadata-only document rebuilt from a cached Meta record. -/
def metaDocOfMeta (m : Meta) : Doc :=
  ⟨m.title, m.model, [], m.created_at, m.last_modified⟩

/-- The Meta record update_conversation_metadata and set_conversations_list
serialize for a conversation. -/
def metaOf (cid : String) (d : Doc) : Meta :=
  ⟨cid, d.title, d.model, d.created_at, d.last_modified⟩

/-- A cached message as get_conversation_messages returns it after
json.loads: the sequence_number key is present. -/
def cmsgToRMsg (c : CMsg) : RMsg :=
  ⟨some c.sequence_number, c.role, c.content, c.time⟩

/-- A PostgreSQL message row as get_conversation returns it:
no sequence_number key in the rebuilt dict. -/
def msgRowToRMsg (r : MsgRow) : RMsg :=
  ⟨none, r.role, r.content, r.timestamp⟩

/-- Conversion used when the facade repopulates the message cache from a
document returned by the PostgreSQL backend (set_conversation_messages reads
only role, content, time). -/
def rmsgToMsg (m : RMsg) : Msg :=
  ⟨m.role, m.content, m.time⟩

/-- Lookup of the conversations row with a given primary key
(SELECT ... WHERE conversation_id = cid). -/
def pgFind (s : PGSt) (cid : String) : Option ConvRow :=
  (s.convs.find? (fun e => e.1 == cid)).map (fun e => e.2)

/-- The ON CONFLICT (conversation_id) DO UPDATE branch of the metadata upsert:
title, model and last_modified are overwritten; user_client_id and created_at
keep their stored values. -/
def updConv (r : ConvRow) (d : Doc) : ConvRow :=
  { r with title := d.title, model := d.model, last_modified := d.last_modified }

/-- The INSERT branch of the metadata upsert. -/
def newConv (user : String) (d : Doc) : ConvRow :=
  ⟨user, d.title, d.model, d.created_at, d.last_modified⟩

/-- INSERT ... ON CONFLICT (conversation_id) DO UPDATE on the conversations
table: update the (unique) existing row in place, otherwise insert. -/
def upsertRow (cid user : String) (d : Doc) : List (String × ConvRow) → List (String × ConvRow)
  | [] => [(cid, newConv user d)]
  | (k, r) :: rest =>
      if k == cid then (k, updConv r d) :: rest
      else (k, r) :: upsertRow cid user d rest

namespace PostgreSQLBackend

/-- PostgreSQLBackend.list_conversations: rows owned by user_id with
created_at within the last days days (cutoff = now - days), ordered by
last_modified DESC, rebuilt without messages. -/
def list_conversations (now : Int) (s : PGSt) (user_id : String) (days : Int) :
    List (String × Doc) :=
  (List.insertionSort (fun a b : String × ConvRow => b.2.last_modified ≤ a.2.last_modified)
      (s.convs.filter (fun e =>
        e.2.user_client_id == user_id && now - days * 86400 ≤ e.2.created_at))).map
    (fun e => (e.1, metaDoc e.2))

/-- Message rows of a conversation ordered by sequence_number ASC. -/
def orderedMsgRows (s : PGSt) (cid : String) : List MsgRow :=
  List.insertionSort (fun a b : MsgRow => a.sequence_number ≤ b.sequence_number)
    (s.msgs.filter (fun m => m.conversation_id == cid))

/-- PostgreSQLBackend.get_conversation: metadata row fetched with
WHERE conversation_id = cid AND user_client_id = user_id (ownership at the
query level); on a hit the messages are loaded ordered by sequence_number. -/
def get_conversation (s : PGSt) (cid user_id : String) : Option RDoc :=
  match s.convs.find? (fun e => e.1 == cid && e.2.user_client_id == user_id) with
  | none => none
  | some (_, r) =>
      some ⟨r.title, r.model, (orderedMsgRows s cid).map msgRowToRMsg,
            r.created_at, r.last_modified⟩

/-- PostgreSQLBackend.save_conversation: one transaction that upserts the
metadata row, deletes all message rows of the conversation and reinserts the
documents messages with sequence numbers 0, 1, .... -/
def save_conversation (s : PGSt) (cid user_id : String) (d : Doc) : PGSt :=
  ⟨upsertRow cid user_id d s.convs,
   s.msgs.filter (fun m => !(m.conversation_id == cid)) ++ seqRowsFrom cid 0 d.messages⟩

/-- PostgreSQLBackend.delete_conversation: DELETE ... WHERE conversation_id
AND user_client_id; message rows disappear through the ON DELETE CASCADE
foreign key exactly when the conversation row was deleted. -/
def delete_conversation (s : PGSt) (cid user_id : String) : PGSt :=
  let owned := s.convs.any (fun e => e.1 == cid && e.2.user_client_id == user_id)
  ⟨s.convs.filter (fun e => !(e.1 == cid && e.2.user_client_id == user_id)),
   if owned then s.msgs.filter (fun m => !(m.conversation_id == cid)) else s.msgs⟩

end PostgreSQLBackend

/-- ZREVRANGE key 0 -1: all members ordered by score descending (modelled as a
stable sort; real Redis breaks score ties by member lexicographic order, which
no claim depends on). -/
def zrevrange (l : List ZEntry) : List ZEntry :=
  List.insertionSort (fun a b : ZEntry => b.score ≤ a.score) l

/-- ZADD key score member: update the score of an existing identical member,
otherwise add the member. -/
def zadd (l : List ZEntry) (e : ZEntry) : List ZEntry :=
  if l.any (fun x => x.val == e.val) then
    l.map (fun x => if x.val == e.val then e else x)
  else l ++ [e]

/-- json.loads applied to every member of a sorted-set range (the parse loop of
get_conversations_list); the first corrupt member raises. -/
def parseAllMetas : List ZEntry → Except PyErr (List Meta)
  | [] => .ok []
  | ⟨.ok m, _⟩ :: rest => (parseAllMetas rest).map (fun l => m :: l)
  | ⟨.corrupt, _⟩ :: _ => .error .jsonDecodeError

/-- The scan loops of get_conversation_messages, update_conversation_metadata
and delete_conversation_cache: json.loads each member in range order until one
has the wanted conversation_id, then stop.  A corrupt member reached before a
match raises json.JSONDecodeError (not caught by except redis.RedisError). -/
def findMeta : List ZEntry → String → Except PyErr (Option Meta)
  | [], _ => .ok none
  | ⟨.corrupt, _⟩ :: _, _ => .error .jsonDecodeError
  | ⟨.ok m, _⟩ :: rest, cid =>
      if m.conversation_id == cid then .ok (some m) else findMeta rest cid

/-- json.loads applied to every member of the cached message list. -/
def parseAllMsgs : List MsgVal → Except PyErr (List CMsg)
  | [] => .ok []
  | .ok c :: rest => (parseAllMsgs rest).map (fun l => c :: l)
  | .corrupt :: _ => .error .jsonDecodeError

namespace RedisBackend

/-- RedisBackend.get_conversations_list: ZREVRANGE the users sorted set; an
empty range is a miss (None); otherwise parse every member, keep those with
created_at within the cutoff, refresh the TTL and return the metadata-only
documents.  On RedisError the except block returns None. -/
def get_conversations_list (now : Int) (st : RedisSt) (user_id : String) (days : Int) :
    Except PyErr (Option (List (String × Doc))) :=
  if st.failing then .ok none
  else if (zrevrange (st.zsets user_id)).isEmpty then .ok none
  else do
    let metas ← parseAllMetas (zrevrange (st.zsets user_id))
    .ok (some ((metas.filter (fun m => now - days * 86400 ≤ m.created_at)).map
      (fun m => (m.conversation_id, metaDocOfMeta m))))

/-- RedisBackend.set_conversations_list: ZADD one serialized metadata member
per conversation, scored by last_modified, into the users sorted set
(no prior delete).  Returns success; False and no mutation on RedisError. -/
def set_conversations_list (st : RedisSt) (user_id : String)
    (conversations : List (String × Doc)) : RedisSt × Bool :=
  if st.failing then (st, false)
  else
    ({ st with zsets := (updFn st.zsets user_id
        (conversations.foldl
          (fun acc c => zadd acc ⟨.ok (metaOf c.1 c.2), c.2.last_modified⟩)
          (st.zsets user_id))) },
     true)

/-- RedisBackend.get_conversation_messages: LRANGE the conversations message
list; an empty list is a miss (None).  Otherwise ownership is checked by
scanning the users cached metadata for the conversation id; with no matching
metadata the result is a miss, else the cached document is rebuilt from the
matching metadata and the parsed messages (which keep their sequence_number
key).  On RedisError the except block returns None. -/
def get_conversation_messages (st : RedisSt) (cid user_id : String) :
    Except PyErr (Option RDoc) :=
  if st.failing then .ok none
  else if (st.lists cid).isEmpty then .ok none
  else do
    let found ← findMeta (zrevrange (st.zsets user_id)) cid
    match found with
    | none => .ok none
    | some meta => do
        let msgs ← parseAllMsgs (st.lists cid)
        .ok (some ⟨meta.title, meta.model, msgs.map cmsgToRMsg,
                   meta.created_at, meta.last_modified⟩)

/-- RedisBackend.set_conversation_messages: pipeline that deletes the message
list and RPUSHes every message with sequence_number 0, 1, .... -/
def set_conversation_messages (st : RedisSt) (cid : String) (messages : List Msg) :
    RedisSt × Bool :=
  if st.failing then (st, false)
  else
    ({ st with lists := updFn st.lists cid ((numberFrom 0 messages).map .ok) }, true)

/-- RedisBackend.append_messages: pipeline that RPUSHes the new messages onto
the existing list with sequence numbers continuing at start_sequence. -/
def append_messages (st : RedisSt) (cid : String) (new_messages : List Msg)
    (start_sequence : Nat) : RedisSt × Bool :=
  if st.failing then (st, false)
  else
    ({ st with lists := (updFn st.lists cid
        (st.lists cid ++ (numberFrom start_sequence new_messages).map .ok)) },
     true)

/-- RedisBackend.update_conversation_metadata: scan the users sorted set for
the first member with this conversation id and ZREM it, then ZADD the new
serialized metadata scored by last_modified.  Returns False and mutates nothing
on RedisError; json.loads of a corrupt member raises. -/
def update_conversation_metadata (st : RedisSt) (user_id cid : String) (d : Doc) :
    Except PyErr (RedisSt × Bool) :=
  if st.failing then .ok (st, false)
  else do
    let old ← findMeta (zrevrange (st.zsets user_id)) cid
    let z1 :=
      match old with
      | some m => (st.zsets user_id).filter (fun e => !(e.val == MetaVal.ok m))
      | none => st.zsets user_id
    .ok ({ st with zsets := (updFn st.zsets user_id
            (zadd z1 ⟨.ok (metaOf cid d), d.last_modified⟩)) },
         true)

/-- RedisBackend.delete_conversation_cache: ZREM the first matching metadata
member from the users sorted set and DEL the conversations message list. -/
def delete_conversation_cache (st : RedisSt) (user_id cid : String) :
    Except PyErr (RedisSt × Bool) :=
  if st.failing then .ok (st, false)
  else do
    let old ← findMeta (zrevrange (st.zsets user_id)) cid
    let z1 :=
      match old with
      | some m => (st.zsets user_id).filter (fun e => !(e.val == MetaVal.ok m))
      | none => st.zsets user_id
    .ok ({ st with zsets := updFn st.zsets user_id z1, lists := updFn st.lists cid [] },
         true)

end RedisBackend

/-- Content of a file in the flat-file store: a well-formed serialized
document, or bytes that json.loads rejects (corrupt / unreadable). -/
inductive FileVal where
  | good (d : Doc)
  | bad
deriving DecidableEq

/-- The .chat_history directory: file name to file content. -/
abbrev FS : Type := List (String × FileVal)

/-- Content of a named file, if present. -/
def fsLookup (fs : FS) (name : String) : Option FileVal :=
  (fs.find? (fun e => e.1 == name)).map (fun e => e.2)

/-- Write a file: the directory maps each name to one content, so a write
replaces any entry of that name (entry order in the model is unobservable:
every consumer either looks a name up or sorts the names). -/
def fsInsert (fs : FS) (name : String) (v : FileVal) : FS :=
  (name, v) :: fs.filter (fun e => !(e.1 == name))

/-- Remove a file if present. -/
def fsErase (fs : FS) (name : String) : FS :=
  fs.filter (fun e => !(e.1 == name))

/-- Whether a file name matches the glob *.json, that is ends in .json. -/
def hasJsonSuffix (name : String) : Bool :=
  List.isSuffixOf ".json".data name.data

/-- Path.stem of a *.json file name: drop the 5-character .json suffix. -/
def stemJson (name : String) : String :=
  ⟨name.data.take (name.data.length - 5)⟩

/-- Total order on file names used by sorted() over the glob results
(lexicographic on the character sequences). -/
def lexLeChars : List Char → List Char → Bool
  | [], _ => true
  | _ :: _, [] => false
  | a :: as, b :: bs => if a = b then lexLeChars as bs else decide (a < b)

/-- Lexicographic comparison of file names. -/
def nameLe (a b : String) : Bool := lexLeChars a.data b.data

namespace ChatHistoryManager

/-- ChatHistoryManager._safe_read_json: None for a missing, corrupt or
unreadable file, the parsed document otherwise. -/
def safe_read_json (fs : FS) (name : String) : Option Doc :=
  match fsLookup fs name with
  | some (.good d) => some d
  | _ => none

/-- ChatHistoryManager._iter_json_files: the file names matching *.json. -/
def iter_json_files (fs : FS) : List String :=
  (fs.filter (fun e => hasJsonSuffix e.1)).map (fun e => e.1)

/-- Local branch of ChatHistoryManager.list_conversations: iterate the *.json
files in sorted order, pair each stem with its parsed document, and silently
skip files that fail to parse. -/
def list_conversations_local (fs : FS) : List (String × Doc) :=
  (List.insertionSort (fun a b : String => nameLe a b = true) (iter_json_files fs)).filterMap
    (fun name => (safe_read_json fs name).map (fun d => (stemJson name, d)))

/-- Local branch of ChatHistoryManager.get_conversation. -/
def get_conversation_local (fs : FS) (cid : String) : Option Doc :=
  safe_read_json fs (cid ++ ".json")

/-- First half of the local branch of ChatHistoryManager.save_conversation:
serialize the document into <cid>.json.tmp (Path.with_suffix turns
<cid>.json into <cid>.json.tmp). -/
def save_conversation_local_tmp (fs : FS) (cid : String) (d : Doc) : FS :=
  fsInsert fs (cid ++ ".json.tmp") (.good d)

/-- Second half of the local branch of ChatHistoryManager.save_conversation:
os.replace(<cid>.json.tmp, <cid>.json), an atomic rename that installs the
temporary files content (the serialized document) at the final path and
removes the temporary file. -/
def save_conversation_local_replace (fs : FS) (cid : String) (d : Doc) : FS :=
  fsErase (fsInsert fs (cid ++ ".json") (.good d)) (cid ++ ".json.tmp")

/-- Local branch of ChatHistoryManager.save_conversation: write the temporary
file, then atomically rename it over the final path. -/
def save_conversation_local (fs : FS) (cid : String) (d : Doc) : FS :=
  save_conversation_local_replace (save_conversation_local_tmp fs cid d) cid d

/-- Local branch of ChatHistoryManager.delete_conversation
(unlink with missing_ok). -/
def delete_conversation_local (fs : FS) (cid : String) : FS :=
  fsErase fs (cid ++ ".json")

/-- Postgres branch of ChatHistoryManager.list_conversations (user_id checked
present by the facade, then delegated to the backend with history_days). -/
def list_conversations_postgres (now : Int) (history_days : Int) (s : PGSt)
    (user_id : String) : List (String × Doc) :=
  PostgreSQLBackend.list_conversations now s user_id history_days

/-- Redis branch of ChatHistoryManager.list_conversations: probe the cache; on
a hit return the cached list, on a miss load from PostgreSQL and populate the
cache before returning. -/
def list_conversations_redis (now : Int) (history_days : Int) (s : St) (user_id : String) :
    Except PyErr (List (String × Doc) × St) := do
  let hit ← RedisBackend.get_conversations_list now s.rs user_id history_days
  match hit with
  | some l => .ok (l, s)
  | none =>
      let conversations := PostgreSQLBackend.list_conversations now s.pg user_id history_days
      let p := RedisBackend.set_conversations_list s.rs user_id conversations
      .ok (conversations, ⟨s.pg, p.1⟩)

/-- Redis branch of ChatHistoryManager.get_conversation: probe the cache; on a
miss load from PostgreSQL and, when the conversation exists, populate the
message cache from its messages dicts. -/
def get_conversation_redis (s : St) (cid user_id : String) :
    Except PyErr (Option RDoc × St) := do
  let hit ← RedisBackend.get_conversation_messages s.rs cid user_id
  match hit with
  | some d => .ok (some d, s)
  | none =>
      match PostgreSQLBackend.get_conversation s.pg cid user_id with
      | some d =>
          let p := RedisBackend.set_conversation_messages s.rs cid (d.messages.map rmsgToMsg)
          .ok (some d, ⟨s.pg, p.1⟩)
      | none => .ok (none, s)

/-- The message-cache step of the redis branch of
ChatHistoryManager.save_conversation, the try block that catches every
exception: LLEN the cached list; append the suffix of the documents messages
beyond that count with continued sequence numbers, or cache the full list when
nothing is cached yet; when the count is positive and no new suffix exists, do
nothing.  Under a connectivity failure LLEN raises and the except leaves the
cache untouched. -/
def save_message_cache_step (st : RedisSt) (cid : String) (d : Doc) : RedisSt :=
  if st.failing then st
  else if !(d.messages.drop (st.lists cid).length).isEmpty then
    (RedisBackend.append_messages st cid (d.messages.drop (st.lists cid).length)
      (st.lists cid).length).1
  else if (st.lists cid).length == 0 then
    (RedisBackend.set_conversation_messages st cid d.messages).1
  else st

/-- Redis branch of ChatHistoryManager.save_conversation: write PostgreSQL
first (source of truth), then update the cached metadata (exceptions other
than RedisError propagate), then run the guarded message-cache step. -/
def save_conversation_redis (s : St) (cid user_id : String) (d : Doc) :
    Except PyErr St := do
  let pg1 := PostgreSQLBackend.save_conversation s.pg cid user_id d
  let p ← RedisBackend.update_conversation_metadata s.rs user_id cid d
  .ok ⟨pg1, save_message_cache_step p.1 cid d⟩

/-- Redis branch of ChatHistoryManager.delete_conversation: delete from
PostgreSQL first, then invalidate both cache shapes. -/
def delete_conversation_redis (s : St) (cid user_id : String) : Except PyErr St := do
  let pg1 := PostgreSQLBackend.delete_conversation s.pg cid user_id
  let p ← RedisBackend.delete_conversation_cache s.rs user_id cid
  .ok ⟨pg1, p.1⟩

end ChatHistoryManager

/-- An empty Redis server (no keys, connected). -/
def emptyRedis : RedisSt := ⟨false, fun _ => [], fun _ => []⟩

/-- Simulate a cold cache: clear every cached key, keep PostgreSQL. -/
def clearCache (s : St) : St := ⟨s.pg, emptyRedis⟩

/-- A name built with the .json suffix matches the *.json glob. -/
theorem hasJsonSuffix_json (s : String) : hasJsonSuffix (s ++ ".json") = true := by
  unfold hasJsonSuffix
  rw [String.data_append]
  exact List.isSuffixOf_iff_suffix.mpr (List.suffix_append _ _)

/-- A temporary file name never matches the *.json glob. -/
theorem hasJsonSuffix_tmp (s : String) : hasJsonSuffix (s ++ ".json.tmp") = false := by
  unfold hasJsonSuffix
  rw [String.data_append]
  by_contra h
  rw [Bool.not_eq_false, List.isSuffixOf_iff_suffix] at h
  obtain ⟨t, ht⟩ := h
  have h1 : (t ++ ".json".data).getLast? = (".json".data).getLast? :=
    List.getLast?_append_of_ne_nil t (by decide)
  have h2 : (s.data ++ ".json.tmp".data).getLast? = (".json.tmp".data).getLast? :=
    List.getLast?_append_of_ne_nil s.data (by decide)
  rw [ht, h2] at h1
  exact absurd h1 (by decide)

/-- A temporary file name differs from every *.json file name. -/
theorem tmp_ne_json (s t : String) : s ++ ".json.tmp" ≠ t ++ ".json" := by
  intro h
  have := hasJsonSuffix_tmp s
  rw [h, hasJsonSuffix_json] at this
  simp at this

theorem fsLookup_cons_self (fs : FS) (n : String) (v : FileVal) :
    fsLookup ((n, v) :: fs) n = some v := by
  simp [fsLookup, List.find?]

theorem fsLookup_cons_ne (fs : FS) (n m : String) (v : FileVal) (h : m ≠ n) :
    fsLookup ((n, v) :: fs) m = fsLookup fs m := by
  simp [fsLookup, List.find?, beq_false_of_ne (Ne.symm h)]

theorem fsLookup_filter_ne (fs : FS) (n m : String) (h : m ≠ n) :
    fsLookup (fs.filter (fun e => !(e.1 == n))) m = fsLookup fs m := by
  induction fs with
  | nil => rfl
  | cons e rest ih =>
      rcases e with ⟨en, ev⟩
      by_cases he : en = n
      · have hb : ((en, ev).1 == n) = true := beq_iff_eq.mpr he
        simp only [List.filter, hb, Bool.not_true]
        rw [ih]
        exact (fsLookup_cons_ne rest en m ev (fun hm => h (hm.trans he))).symm
      · have hb : ((en, ev).1 == n) = false := beq_false_of_ne he
        simp only [List.filter, hb, Bool.not_false]
        by_cases hm : m = en
        · subst hm
          rw [fsLookup_cons_self, fsLookup_cons_self]
        · rw [fsLookup_cons_ne _ _ _ _ hm, fsLookup_cons_ne _ _ _ _ hm, ih]

theorem fsLookup_erase_ne (fs : FS) (n m : String) (h : m ≠ n) :
    fsLookup (fsErase fs n) m = fsLookup fs m :=
  fsLookup_filter_ne fs n m h

theorem fsLookup_insert_self (fs : FS) (n : String) (v : FileVal) :
    fsLookup (fsInsert fs n v) n = some v :=
  fsLookup_cons_self _ n v

theorem fsLookup_insert_ne (fs : FS) (n m : String) (v : FileVal) (h : m ≠ n) :
    fsLookup (fsInsert fs n v) m = fsLookup fs m := by
  unfold fsInsert
  rw [fsLookup_cons_ne _ _ _ _ h]
  exact fsLookup_filter_ne fs n m h

theorem mem_iter_json_files {fs : FS} {name : String}
    (h : name ∈ ChatHistoryManager.iter_json_files fs) : hasJsonSuffix name = true := by
  unfold ChatHistoryManager.iter_json_files at h
  obtain ⟨e, he, hj⟩ := List.mem_map.mp h
  exact hj ▸ (List.mem_filter.mp he).2

/-- C4: the local save writes the serialized document to <cid>.json.tmp and
then atomically renames it over <cid>.json; after the full save the stored
document at <cid>.json is exactly the new one, while the intermediate state
(crash before the rename) leaves the previously stored document at <cid>.json
(or its absence) untouched and readable. -/
theorem c4_local_save_atomic (fs : FS) (cid : String) (d : Doc) :
    ChatHistoryManager.get_conversation_local
        (ChatHistoryManager.save_conversation_local fs cid d) cid = some d
    ∧ ChatHistoryManager.get_conversation_local
        (ChatHistoryManager.save_conversation_local_tmp fs cid d) cid
        = ChatHistoryManager.get_conversation_local fs cid
    ∧ fsLookup (ChatHistoryManager.save_conversation_local_tmp fs cid d) (cid ++ ".json")
        = fsLookup fs (cid ++ ".json") := by
  have hne : cid ++ ".json" ≠ cid ++ ".json.tmp" := Ne.symm (tmp_ne_json cid cid)
  refine ⟨?_, ?_, ?_⟩
  · unfold ChatHistoryManager.get_conversation_local ChatHistoryManager.save_conversation_local
      ChatHistoryManager.save_conversation_local_replace ChatHistoryManager.safe_read_json
    rw [fsLookup_erase_ne _ _ _ hne, fsLookup_insert_self]
  · unfold ChatHistoryManager.get_conversation_local ChatHistoryManager.save_conversation_local_tmp
      ChatHistoryManager.safe_read_json
    rw [fsLookup_insert_ne _ _ _ _ hne]
  · unfold ChatHistoryManager.save_conversation_local_tmp
    rw [fsLookup_insert_ne _ _ _ _ hne]

theorem filterMap_congr_mem {α β : Type} {l : List α} {f g : α → Option β}
    (h : ∀ a ∈ l, f a = g a) : l.filterMap f = l.filterMap g := by
  induction l with
  | nil => rfl
  | cons a rest ih =>
      rw [List.filterMap_cons, List.filterMap_cons, h a (by simp),
        ih (fun x hx => h x (by simp [hx]))]

theorem iter_json_files_erase_ne (fs : FS) (t : String) (ht : hasJsonSuffix t = false) :
    ChatHistoryManager.iter_json_files (fsErase fs t) = ChatHistoryManager.iter_json_files fs := by
  unfold ChatHistoryManager.iter_json_files fsErase
  rw [List.filter_filter]
  congr 1
  apply List.filter_congr
  intro a _
  cases hjc : hasJsonSuffix a.1 with
  | true =>
      have ha : ¬ (a.1 = t) := by
        intro h
        rw [h, ht] at hjc
        exact Bool.noConfusion hjc
      simp [hjc, beq_false_of_ne ha]
  | false => simp [hjc]

/-- C10: the local listing enumerates only names matching *.json; a leftover
temporary file <cid>.json.tmp from an interrupted save never matches, is never
returned, and its presence (or removal) does not change the listing of any
directory state, hence holds after any sequence of saves and deletes. -/
theorem c10_tmp_never_listed (fs : FS) (cid : String) (v : FileVal) :
    hasJsonSuffix (cid ++ ".json.tmp") = false
    ∧ (∀ name ∈ ChatHistoryManager.iter_json_files fs, hasJsonSuffix name = true)
    ∧ ChatHistoryManager.list_conversations_local ((cid ++ ".json.tmp", v) :: fs)
        = ChatHistoryManager.list_conversations_local fs
    ∧ ChatHistoryManager.list_conversations_local (fsErase fs (cid ++ ".json.tmp"))
        = ChatHistoryManager.list_conversations_local fs := by
  have htmp : hasJsonSuffix (cid ++ ".json.tmp") = false := hasJsonSuffix_tmp cid
  refine ⟨htmp, fun name h => mem_iter_json_files h, ?_, ?_⟩
  · unfold ChatHistoryManager.list_conversations_local
    have hiter : ChatHistoryManager.iter_json_files ((cid ++ ".json.tmp", v) :: fs)
        = ChatHistoryManager.iter_json_files fs := by
      unfold ChatHistoryManager.iter_json_files
      simp [List.filter_cons, htmp]
    rw [hiter]
    apply filterMap_congr_mem
    intro name hn
    have hmem : name ∈ ChatHistoryManager.iter_json_files fs :=
      (List.Perm.mem_iff (List.perm_insertionSort _ _)).mp hn
    have hj := mem_iter_json_files hmem
    have hne : name ≠ cid ++ ".json.tmp" := by
      intro he
      rw [he, htmp] at hj
      exact Bool.noConfusion hj
    unfold ChatHistoryManager.safe_read_json
    rw [fsLookup_cons_ne _ _ _ _ hne]
  · unfold ChatHistoryManager.list_conversations_local
    rw [iter_json_files_erase_ne fs _ htmp]
    apply filterMap_congr_mem
    intro name hn
    have hmem : name ∈ ChatHistoryManager.iter_json_files fs :=
      (List.Perm.mem_iff (List.perm_insertionSort _ _)).mp hn
    have hj := mem_iter_json_files hmem
    have hne : name ≠ cid ++ ".json.tmp" := by
      intro he
      rw [he, htmp] at hj
      exact Bool.noConfusion hj
    unfold ChatHistoryManager.safe_read_json
    rw [fsLookup_erase_ne _ _ _ hne]

theorem upsertRow_of_none (cid u : String) (d : Doc) (l : List (String × ConvRow))
    (h : l.find? (fun e => e.1 == cid) = none) :
    upsertRow cid u d l = l ++ [(cid, newConv u d)] := by
  induction l with
  | nil => rfl
  | cons e rest ih =>
      rcases e with ⟨k, r⟩
      cases hb : (k == cid) with
      | true =>
          rw [List.find?_cons_of_pos _ (by simpa using hb)] at h
          exact absurd h (by simp)
      | false =>
          rw [List.find?_cons_of_neg _ (by simpa using hb)] at h
          unfold upsertRow
          rw [hb, ih h]
          simp

theorem upsertRow_cons_pos (k cid u : String) (r : ConvRow) (d : Doc)
    (rest : List (String × ConvRow)) (hb : k = cid) :
    upsertRow cid u d ((k, r) :: rest) = (k, updConv r d) :: rest := by
  unfold upsertRow
  simp [hb]

theorem upsertRow_cons_neg (k cid u : String) (r : ConvRow) (d : Doc)
    (rest : List (String × ConvRow)) (hb : ¬ (k = cid)) :
    upsertRow cid u d ((k, r) :: rest) = (k, r) :: upsertRow cid u d rest := by
  simp only [upsertRow]
  simp [hb]

theorem find?_upsertRow_of_some (cid u : String) (d : Doc) (l : List (String × ConvRow))
    (p : String × ConvRow) (h : l.find? (fun e => e.1 == cid) = some p) :
    (upsertRow cid u d l).find? (fun e => e.1 == cid) = some (p.1, updConv p.2 d) := by
  induction l with
  | nil => exact absurd h (by simp)
  | cons e rest ih =>
      rcases e with ⟨k, r⟩
      by_cases hb : k = cid
      · rw [List.find?_cons_of_pos _ (by simpa using hb)] at h
        have hp := Option.some.inj h
        rw [upsertRow_cons_pos _ _ _ _ _ _ hb,
          List.find?_cons_of_pos _ (by simpa using hb), ← hp]
      · rw [List.find?_cons_of_neg _ (by simpa using hb)] at h
        rw [upsertRow_cons_neg _ _ _ _ _ _ hb,
          List.find?_cons_of_neg _ (by simpa using hb)]
        exact ih h

theorem find?_upsertRow_of_none (cid u : String) (d : Doc) (l : List (String × ConvRow))
    (h : l.find? (fun e => e.1 == cid) = none) :
    (upsertRow cid u d l).find? (fun e => e.1 == cid) = some (cid, newConv u d) := by
  rw [upsertRow_of_none cid u d l h]
  induction l with
  | nil => simp [List.find?]
  | cons e rest ih =>
      rcases e with ⟨k, r⟩
      cases hb : (k == cid) with
      | true =>
          rw [List.find?_cons_of_pos _ (by simpa using hb)] at h
          exact absurd h (by simp)
      | false =>
          rw [List.find?_cons_of_neg _ (by simpa using hb)] at h
          rw [List.cons_append, List.find?_cons_of_neg _ (by simpa using hb)]
          exact ih h

theorem pgFind_save_of_some (s : PGSt) (cid u : String) (d : Doc) (r : ConvRow)
    (h : pgFind s cid = some r) :
    pgFind (PostgreSQLBackend.save_conversation s cid u d) cid = some (updConv r d) := by
  unfold pgFind at h ⊢
  obtain ⟨p, hp, hpr⟩ := Option.map_eq_some'.mp h
  unfold PostgreSQLBackend.save_conversation
  rw [find?_upsertRow_of_some cid u d _ p hp]
  simp [hpr]

theorem pgFind_save_of_none (s : PGSt) (cid u : String) (d : Doc)
    (h : pgFind s cid = none) :
    pgFind (PostgreSQLBackend.save_conversation s cid u d) cid = some (newConv u d) := by
  unfold pgFind at h ⊢
  rw [Option.map_eq_none'] at h
  unfold PostgreSQLBackend.save_conversation
  rw [find?_upsertRow_of_none cid u d _ h]
  rfl

theorem created_at_foldl (cid : String) (c : Int) (saves : List (String × Doc)) :
    ∀ st : PGSt, (pgFind st cid).map ConvRow.created_at = some c →
    (pgFind (saves.foldl
        (fun st p => PostgreSQLBackend.save_conversation st cid p.1 p.2) st) cid).map
      ConvRow.created_at = some c := by
  induction saves with
  | nil => exact fun st h => h
  | cons p rest ih =>
      intro st h
      obtain ⟨r, hr, hc⟩ := Option.map_eq_some'.mp h
      refine ih _ ?_
      rw [pgFind_save_of_some st cid p.1 p.2 r hr]
      simpa [updConv] using hc

/-- C8: on a save for an already-stored conversation id the upsert overwrites
title, model and last_modified but keeps the stored created_at; consequently
after the first save of an id, created_at stays equal to the first saved
documents created_at across any sequence of further saves with any documents
and users. -/
theorem c8_created_at_preserved (cid : String) (s t : PGSt) (u u₀ : String) (d d₀ : Doc)
    (r : ConvRow) (saves : List (String × Doc))
    (hsome : pgFind s cid = some r) (hnone : pgFind t cid = none) :
    pgFind (PostgreSQLBackend.save_conversation s cid u d) cid
      = some ⟨r.user_client_id, d.title, d.model, r.created_at, d.last_modified⟩
    ∧ (pgFind (saves.foldl (fun st p => PostgreSQLBackend.save_conversation st cid p.1 p.2)
          (PostgreSQLBackend.save_conversation t cid u₀ d₀)) cid).map ConvRow.created_at
        = some d₀.created_at := by
  constructor
  · rw [pgFind_save_of_some s cid u d r hsome]
    rfl
  · refine created_at_foldl cid d₀.created_at saves _ ?_
    rw [pgFind_save_of_none t cid u₀ d₀ hnone]
    rfl

/-- Witness for c8_created_at_preserved at a concrete store: a conversation
first saved with created_at 5 keeps created_at 5 after two further saves, and
a single re-save keeps the stored created_at 7. -/
theorem c8_witness :
    pgFind (PostgreSQLBackend.save_conversation
        ⟨[("c", ⟨"alice", "t0", "m0", 7, 8⟩)], []⟩ "c" "alice" ⟨"t1", "m1", [], 9, 10⟩) "c"
      = some ⟨"alice", "t1", "m1", 7, 10⟩
    ∧ (pgFind ([(("bob" : String), (⟨"t2", "m2", [], 11, 12⟩ : Doc)),
          ("bob", ⟨"t3", "m3", [], 13, 14⟩)].foldl
          (fun st p => PostgreSQLBackend.save_conversation st "c" p.1 p.2)
          (PostgreSQLBackend.save_conversation ⟨[], []⟩ "c" "bob" ⟨"t1", "m1", [], 5, 6⟩)) "c").map
        ConvRow.created_at = some 5 :=
  c8_created_at_preserved "c" ⟨[("c", ⟨"alice", "t0", "m0", 7, 8⟩)], []⟩ ⟨[], []⟩
    "alice" "bob" ⟨"t1", "m1", [], 9, 10⟩ ⟨"t1", "m1", [], 5, 6⟩
    ⟨"alice", "t0", "m0", 7, 8⟩
    [("bob", ⟨"t2", "m2", [], 11, 12⟩), ("bob", ⟨"t3", "m3", [], 13, 14⟩)]
    (by decide) (by decide)

theorem nodup_keys_unique (l : List (String × ConvRow)) (cid : String) (p : String × ConvRow)
    (hnodup : (l.map Prod.fst).Nodup) (h : l.find? (fun e => e.1 == cid) = some p) :
    ∀ q ∈ l, q.1 = cid → q = p := by
  induction l with
  | nil => exact absurd h (by simp)
  | cons e rest ih =>
      rw [List.map_cons, List.nodup_cons] at hnodup
      by_cases hb : e.1 = cid
      · rw [List.find?_cons_of_pos _ (by simpa using hb)] at h
        have hep := Option.some.inj h
        intro q hq hq1
        rcases List.mem_cons.mp hq with hqe | hqr
        · rw [hqe, hep]
        · exfalso
          apply hnodup.1
          rw [hb, ← hq1]
          exact List.mem_map.mpr ⟨q, hqr, rfl⟩
      · rw [List.find?_cons_of_neg _ (by simpa using hb)] at h
        intro q hq hq1
        rcases List.mem_cons.mp hq with hqe | hqr
        · exact absurd (hqe ▸ hq1) hb
        · exact ih hnodup.2 h q hqr hq1

theorem pgFind_elim (s : PGSt) (cid : String) (r : ConvRow) (h : pgFind s cid = some r) :
    ∃ p, s.convs.find? (fun e => e.1 == cid) = some p ∧ p.2 = r ∧ p.1 = cid ∧ p ∈ s.convs := by
  unfold pgFind at h
  obtain ⟨p, hp, hpr⟩ := Option.map_eq_some'.mp h
  exact ⟨p, hp, hpr, by simpa using List.find?_some hp, List.mem_of_find?_eq_some hp⟩

/-- C3: in the relational store, ownership is enforced at the query level: for
a conversation stored under user A, a get with a different user B returns
absent and a delete with B changes nothing, while A's own get succeeds and A's
own delete removes the row and every message row of the conversation. -/
theorem c3_ownership_isolation (s : PGSt) (cid A B : String) (r : ConvRow)
    (hfind : pgFind s cid = some r) (hA : r.user_client_id = A) (hAB : B ≠ A)
    (hnodup : (s.convs.map Prod.fst).Nodup) :
    PostgreSQLBackend.get_conversation s cid B = none
    ∧ PostgreSQLBackend.delete_conversation s cid B = s
    ∧ (PostgreSQLBackend.get_conversation s cid A).isSome
    ∧ pgFind (PostgreSQLBackend.delete_conversation s cid A) cid = none
    ∧ (PostgreSQLBackend.delete_conversation s cid A).msgs.filter
        (fun m => m.conversation_id == cid) = [] := by
  obtain ⟨p, hp, hpr, hp1, hpmem⟩ := pgFind_elim s cid r hfind
  have huniq := nodup_keys_unique s.convs cid p hnodup hp
  have hnotB : ∀ e ∈ s.convs, ¬ ((e.1 == cid && e.2.user_client_id == B) = true) := by
    intro e he hcontra
    rw [Bool.and_eq_true, beq_iff_eq, beq_iff_eq] at hcontra
    have hep := huniq e he hcontra.1
    apply hAB
    rw [← hcontra.2, hep, hpr, hA]
  refine ⟨?_, ?_, ?_, ?_, ?_⟩
  · unfold PostgreSQLBackend.get_conversation
    rw [List.find?_eq_none.mpr hnotB]
  · unfold PostgreSQLBackend.delete_conversation
    have hany : s.convs.any (fun e => e.1 == cid && e.2.user_client_id == B) = false := by
      rw [List.any_eq_false]
      exact hnotB
    have hfil : s.convs.filter (fun e => !(e.1 == cid && e.2.user_client_id == B)) = s.convs := by
      apply List.filter_eq_self.mpr
      intro e he
      have hx : (e.1 == cid && e.2.user_client_id == B) = false :=
        Bool.eq_false_iff.mpr (hnotB e he)
      simp [hx]
    rw [hany, hfil]
    simp
  · have hsome : (s.convs.find? (fun e => e.1 == cid && e.2.user_client_id == A)).isSome := by
      rw [List.find?_isSome]
      exact ⟨p, hpmem, by simp [hp1, hpr, hA]⟩
    obtain ⟨q, hq⟩ := Option.isSome_iff_exists.mp hsome
    rcases q with ⟨k, row⟩
    unfold PostgreSQLBackend.get_conversation
    rw [hq]
    rfl
  · unfold PostgreSQLBackend.delete_conversation pgFind
    have hnone : (s.convs.filter
        (fun e => !(e.1 == cid && e.2.user_client_id == A))).find?
          (fun e => e.1 == cid) = none := by
      rw [List.find?_eq_none]
      intro e he hc
      obtain ⟨hme, hpe⟩ := List.mem_filter.mp he
      have hep : e = p := huniq e hme (by simpa using hc)
      rw [hep] at hpe
      simp [hp1, hpr, hA] at hpe
    rw [hnone]
    rfl
  · unfold PostgreSQLBackend.delete_conversation
    have hany : s.convs.any (fun e => e.1 == cid && e.2.user_client_id == A) = true := by
      rw [List.any_eq_true]
      exact ⟨p, hpmem, by simp [hp1, hpr, hA]⟩
    rw [hany]
    simp only [if_true]
    rw [List.filter_eq_nil_iff]
    intro m hm hc
    obtain ⟨hmm, hpm⟩ := List.mem_filter.mp hm
    rw [hc] at hpm
    exact Bool.noConfusion hpm

/-- Witness for c3_ownership_isolation on a one-conversation store owned by
user A. -/
theorem c3_witness :
    PostgreSQLBackend.get_conversation
        ⟨[("c", ⟨"A", "t", "m", 1, 2⟩)], [⟨"c", 0, "user", "hi", 1⟩]⟩ "c" "B" = none
    ∧ PostgreSQLBackend.delete_conversation
        ⟨[("c", ⟨"A", "t", "m", 1, 2⟩)], [⟨"c", 0, "user", "hi", 1⟩]⟩ "c" "B"
        = ⟨[("c", ⟨"A", "t", "m", 1, 2⟩)], [⟨"c", 0, "user", "hi", 1⟩]⟩
    ∧ (PostgreSQLBackend.get_conversation
        ⟨[("c", ⟨"A", "t", "m", 1, 2⟩)], [⟨"c", 0, "user", "hi", 1⟩]⟩ "c" "A").isSome
    ∧ pgFind (PostgreSQLBackend.delete_conversation
        ⟨[("c", ⟨"A", "t", "m", 1, 2⟩)], [⟨"c", 0, "user", "hi", 1⟩]⟩ "c" "A") "c" = none
    ∧ (PostgreSQLBackend.delete_conversation
        ⟨[("c", ⟨"A", "t", "m", 1, 2⟩)], [⟨"c", 0, "user", "hi", 1⟩]⟩ "c" "A").msgs.filter
          (fun m => m.conversation_id == "c") = [] :=
  c3_ownership_isolation
    ⟨[("c", ⟨"A", "t", "m", 1, 2⟩)], [⟨"c", 0, "user", "hi", 1⟩]⟩ "c" "A" "B"
    ⟨"A", "t", "m", 1, 2⟩ (by decide) (by decide) (by decide) (by decide)

theorem upsertRow_map_fst (cid u : String) (d : Doc) (l : List (String × ConvRow))
    (p : String × ConvRow) (h : l.find? (fun e => e.1 == cid) = some p) :
    (upsertRow cid u d l).map Prod.fst = l.map Prod.fst := by
  induction l with
  | nil => exact absurd h (by simp)
  | cons e rest ih =>
      rcases e with ⟨k, r⟩
      by_cases hb : k = cid
      · rw [upsertRow_cons_pos _ _ _ _ _ _ hb]
        simp
      · rw [List.find?_cons_of_neg _ (by simpa using hb)] at h
        rw [upsertRow_cons_neg _ _ _ _ _ _ hb]
        simp [ih h]

theorem mem_seqRowsFrom (cid : String) : ∀ (ms : List Msg) (n : Nat) (row : MsgRow),
    row ∈ seqRowsFrom cid n ms → row.conversation_id = cid := by
  intro ms
  induction ms with
  | nil => intro n row h; exact absurd h (by simp [seqRowsFrom])
  | cons m rest ih =>
      intro n row h
      rw [seqRowsFrom] at h
      rcases List.mem_cons.mp h with hr | hr
      · rw [hr]
      · exact ih (n + 1) row hr

theorem msgs_filter_save (s : PGSt) (cid user : String) (d : Doc) :
    (PostgreSQLBackend.save_conversation s cid user d).msgs.filter
      (fun m => m.conversation_id == cid) = seqRowsFrom cid 0 d.messages := by
  unfold PostgreSQLBackend.save_conversation
  rw [List.filter_append]
  have h1 : (s.msgs.filter (fun m => !(m.conversation_id == cid))).filter
      (fun m => m.conversation_id == cid) = [] := by
    rw [List.filter_eq_nil_iff]
    intro m hm hc
    obtain ⟨hmm, hpm⟩ := List.mem_filter.mp hm
    rw [hc] at hpm
    exact Bool.noConfusion hpm
  have h2 : (seqRowsFrom cid 0 d.messages).filter (fun m => m.conversation_id == cid)
      = seqRowsFrom cid 0 d.messages := by
    apply List.filter_eq_self.mpr
    intro row hrow
    simpa using mem_seqRowsFrom cid d.messages 0 row hrow
  rw [h1, h2, List.nil_append]

/-- C9: the relational save enforces no ownership: user B's save onto A's
conversation succeeds, replaces the message rows with B's messages, overwrites
title, model, last_modified (created_at preserved), yet leaves user_client_id
equal to A, so get keeps answering to A and not to B. -/
theorem c9_save_has_no_ownership_check (s : PGSt) (cid A B : String) (d : Doc) (r : ConvRow)
    (hfind : pgFind s cid = some r) (hA : r.user_client_id = A) (hAB : B ≠ A)
    (hnodup : (s.convs.map Prod.fst).Nodup) :
    pgFind (PostgreSQLBackend.save_conversation s cid B d) cid
      = some ⟨A, d.title, d.model, r.created_at, d.last_modified⟩
    ∧ (PostgreSQLBackend.save_conversation s cid B d).msgs.filter
        (fun m => m.conversation_id == cid) = seqRowsFrom cid 0 d.messages
    ∧ PostgreSQLBackend.get_conversation
        (PostgreSQLBackend.save_conversation s cid B d) cid B = none
    ∧ (PostgreSQLBackend.get_conversation
        (PostgreSQLBackend.save_conversation s cid B d) cid A).isSome := by
  obtain ⟨p, hp, hpr, hp1, hpmem⟩ := pgFind_elim s cid r hfind
  have hfind2 : (upsertRow cid B d s.convs).find? (fun e => e.1 == cid)
      = some (p.1, updConv p.2 d) := find?_upsertRow_of_some cid B d s.convs p hp
  have hnodup2 : ((upsertRow cid B d s.convs).map Prod.fst).Nodup := by
    rw [upsertRow_map_fst cid B d s.convs p hp]
    exact hnodup
  have huniq2 := nodup_keys_unique (upsertRow cid B d s.convs) cid
    (p.1, updConv p.2 d) hnodup2 hfind2
  have huser : (updConv p.2 d).user_client_id = A := by
    rw [updConv, hpr, hA]
  refine ⟨?_, msgs_filter_save s cid B d, ?_, ?_⟩
  · rw [pgFind_save_of_some s cid B d r hfind]
    rw [updConv, hA]
  · unfold PostgreSQLBackend.get_conversation PostgreSQLBackend.save_conversation
    have hnone : (upsertRow cid B d s.convs).find?
        (fun e => e.1 == cid && e.2.user_client_id == B) = none := by
      rw [List.find?_eq_none]
      intro e he hc
      rw [Bool.and_eq_true, beq_iff_eq, beq_iff_eq] at hc
      have hep := huniq2 e he hc.1
      apply hAB
      rw [← hc.2, hep]
      exact huser
    rw [hnone]
  · have hsome : ((upsertRow cid B d s.convs).find?
        (fun e => e.1 == cid && e.2.user_client_id == A)).isSome := by
      rw [List.find?_isSome]
      refine ⟨(p.1, updConv p.2 d), List.mem_of_find?_eq_some hfind2, ?_⟩
      simp [hp1, huser]
    obtain ⟨q, hq⟩ := Option.isSome_iff_exists.mp hsome
    rcases q with ⟨k, row⟩
    unfold PostgreSQLBackend.get_conversation PostgreSQLBackend.save_conversation
    rw [hq]
    rfl

/-- Witness for c9_save_has_no_ownership_check: user B re-saves A's
conversation with one message; the row keeps owner A, takes B's title and
messages, and get still answers only to A. -/
theorem c9_witness :
    pgFind (PostgreSQLBackend.save_conversation
        ⟨[("c", ⟨"A", "t", "m", 1, 2⟩)], [⟨"c", 0, "user", "hi", 1⟩]⟩ "c" "B"
        ⟨"t2", "m2", [⟨"user", "yo", 3⟩], 9, 4⟩) "c"
      = some ⟨"A", "t2", "m2", 1, 4⟩
    ∧ (PostgreSQLBackend.save_conversation
        ⟨[("c", ⟨"A", "t", "m", 1, 2⟩)], [⟨"c", 0, "user", "hi", 1⟩]⟩ "c" "B"
        ⟨"t2", "m2", [⟨"user", "yo", 3⟩], 9, 4⟩).msgs.filter
          (fun m => m.conversation_id == "c") = seqRowsFrom "c" 0 [⟨"user", "yo", 3⟩]
    ∧ PostgreSQLBackend.get_conversation (PostgreSQLBackend.save_conversation
        ⟨[("c", ⟨"A", "t", "m", 1, 2⟩)], [⟨"c", 0, "user", "hi", 1⟩]⟩ "c" "B"
        ⟨"t2", "m2", [⟨"user", "yo", 3⟩], 9, 4⟩) "c" "B" = none
    ∧ (PostgreSQLBackend.get_conversation (PostgreSQLBackend.save_conversation
        ⟨[("c", ⟨"A", "t", "m", 1, 2⟩)], [⟨"c", 0, "user", "hi", 1⟩]⟩ "c" "B"
        ⟨"t2", "m2", [⟨"user", "yo", 3⟩], 9, 4⟩) "c" "A").isSome :=
  c9_save_has_no_ownership_check
    ⟨[("c", ⟨"A", "t", "m", 1, 2⟩)], [⟨"c", 0, "user", "hi", 1⟩]⟩ "c" "A" "B"
    ⟨"t2", "m2", [⟨"user", "yo", 3⟩], 9, 4⟩ ⟨"A", "t", "m", 1, 2⟩
    (by decide) (by decide) (by decide) (by decide)

/-- The metadata records held by a run of well-formed sorted-set entries. -/
def okMetas (l : List ZEntry) : List Meta :=
  l.filterMap (fun e => match e.val with | .ok m => some m | .corrupt => none)

theorem parseAllMetas_ok (l : List ZEntry) (h : ∀ e ∈ l, ∃ m, e.val = MetaVal.ok m) :
    parseAllMetas l = .ok (okMetas l) := by
  induction l with
  | nil => rfl
  | cons e rest ih =>
      obtain ⟨m, hm⟩ := h e (by simp)
      rcases e with ⟨v, sc⟩
      have hv : v = MetaVal.ok m := hm
      subst hv
      rw [parseAllMetas, ih (fun x hx => h x (by simp [hx]))]
      simp [okMetas, List.filterMap_cons, Except.map]

theorem mem_okMetas (l : List ZEntry) (m : Meta) :
    m ∈ okMetas l ↔ ∃ sc : Int, (⟨MetaVal.ok m, sc⟩ : ZEntry) ∈ l := by
  unfold okMetas
  rw [List.mem_filterMap]
  constructor
  · rintro ⟨e, he, hf⟩
    rcases e with ⟨v, sc⟩
    cases v with
    | ok m2 =>
        simp only [Option.some.injEq] at hf
        exact ⟨sc, by rwa [hf] at he⟩
    | corrupt => exact absurd hf (by simp)
  · rintro ⟨sc, hsc⟩
    exact ⟨⟨MetaVal.ok m, sc⟩, hsc, rfl⟩

/-- Descending last_modified order on list results. -/
def lmDesc (a b : String × Doc) : Prop := b.2.last_modified ≤ a.2.last_modified

instance : IsTotal ZEntry (fun a b : ZEntry => b.score ≤ a.score) :=
  ⟨fun a b => Int.le_total b.score a.score⟩

instance : IsTrans ZEntry (fun a b : ZEntry => b.score ≤ a.score) :=
  ⟨fun _ _ _ hab hbc => le_trans hbc hab⟩

instance : IsTotal (String × ConvRow)
    (fun a b : String × ConvRow => b.2.last_modified ≤ a.2.last_modified) :=
  ⟨fun a b => Int.le_total b.2.last_modified a.2.last_modified⟩

instance : IsTrans (String × ConvRow)
    (fun a b : String × ConvRow => b.2.last_modified ≤ a.2.last_modified) :=
  ⟨fun _ _ _ hab hbc => le_trans hbc hab⟩

/-- C7: in the relational modes the listing returns exactly the conversations
owned by the user whose created_at lies within the last days days, sorted by
last_modified descending, every returned document carrying an empty message
list; the cached listing path of the redis mode applies the same cutoff filter
and order to the users cached metadata (scored by last_modified) and also
returns metadata-only documents. -/
theorem c7_list_retention (now days : Int) (s : PGSt) (u : String) (rs : RedisSt)
    (hfail : rs.failing = false)
    (hwf : ∀ e ∈ rs.zsets u, ∃ m, e.val = MetaVal.ok m ∧ e.score = m.last_modified)
    (hne : rs.zsets u ≠ []) :
    (∀ cid dd, (cid, dd) ∈ PostgreSQLBackend.list_conversations now s u days ↔
        ∃ r : ConvRow, (cid, r) ∈ s.convs ∧ r.user_client_id = u
          ∧ now - days * 86400 ≤ r.created_at ∧ dd = metaDoc r)
    ∧ List.Sorted lmDesc (PostgreSQLBackend.list_conversations now s u days)
    ∧ (∀ p ∈ PostgreSQLBackend.list_conversations now s u days, p.2.messages = ([] : List Msg))
    ∧ (∃ l, RedisBackend.get_conversations_list now rs u days = .ok (some l)
        ∧ (∀ cid dd, (cid, dd) ∈ l ↔ ∃ m : Meta,
            (∃ sc : Int, (⟨MetaVal.ok m, sc⟩ : ZEntry) ∈ rs.zsets u)
            ∧ now - days * 86400 ≤ m.created_at ∧ cid = m.conversation_id
            ∧ dd = metaDocOfMeta m)
        ∧ List.Sorted lmDesc l
        ∧ (∀ p ∈ l, p.2.messages = ([] : List Msg))) := by
  refine ⟨?_, ?_, ?_, ?_⟩
  · intro cid dd
    unfold PostgreSQLBackend.list_conversations
    rw [List.mem_map]
    constructor
    · rintro ⟨e, he, hfe⟩
      have he2 := (List.Perm.mem_iff (List.perm_insertionSort _ _)).mp he
      obtain ⟨hmem, hpred⟩ := List.mem_filter.mp he2
      rw [Bool.and_eq_true, beq_iff_eq, decide_eq_true_eq] at hpred
      rcases e with ⟨k, r⟩
      injection hfe with hk hd
      exact ⟨r, hk ▸ hmem, hpred.1, hpred.2, hd.symm⟩
    · rintro ⟨r, hr, hu2, hc, hd⟩
      refine ⟨(cid, r), ?_, by rw [hd]⟩
      apply (List.Perm.mem_iff (List.perm_insertionSort _ _)).mpr
      exact List.mem_filter.mpr ⟨hr, by simp [hu2, hc]⟩
  · unfold PostgreSQLBackend.list_conversations
    exact (List.sorted_insertionSort
      (fun a b : String × ConvRow => b.2.last_modified ≤ a.2.last_modified) _).map
      _ (fun a b h => h)
  · intro p hp
    unfold PostgreSQLBackend.list_conversations at hp
    obtain ⟨e, he, hfe⟩ := List.mem_map.mp hp
    rw [← hfe]
    rfl
  · have hperm : List.Perm (zrevrange (rs.zsets u)) (rs.zsets u) :=
      List.perm_insertionSort _ _
    have hwfr : ∀ e ∈ zrevrange (rs.zsets u),
        ∃ m, e.val = MetaVal.ok m ∧ e.score = m.last_modified :=
      fun e he => hwf e (hperm.mem_iff.mp he)
    have hraw : (zrevrange (rs.zsets u)).isEmpty = false := by
      have hz : zrevrange (rs.zsets u) ≠ [] := by
        intro h0
        exact hne (((h0 ▸ hperm) : List.Perm [] (rs.zsets u)).symm.eq_nil)
      simpa using hz
    have hparse := parseAllMetas_ok (zrevrange (rs.zsets u))
      (fun e he => ⟨(hwfr e he).choose, (hwfr e he).choose_spec.1⟩)
    refine ⟨((okMetas (zrevrange (rs.zsets u))).filter
        (fun m => now - days * 86400 ≤ m.created_at)).map
        (fun m => (m.conversation_id, metaDocOfMeta m)), ?_, ?_, ?_, ?_⟩
    · unfold RedisBackend.get_conversations_list
      rw [hfail, hraw]
      simp only [Bool.false_eq_true, if_false, hparse]
      rfl
    · intro cid dd
      rw [List.mem_map]
      constructor
      · rintro ⟨m, hm, hfm⟩
        obtain ⟨hmm, hpred⟩ := List.mem_filter.mp hm
        obtain ⟨sc, hsc⟩ := (mem_okMetas _ m).mp hmm
        injection hfm with h1 h2
        exact ⟨m, ⟨sc, hperm.mem_iff.mp hsc⟩, by simpa using hpred, h1.symm, h2.symm⟩
      · rintro ⟨m, ⟨sc, hsc⟩, hc, hcid, hdd⟩
        refine ⟨m, ?_, by rw [hcid, hdd]⟩
        exact List.mem_filter.mpr
          ⟨(mem_okMetas _ m).mpr ⟨sc, hperm.mem_iff.mpr hsc⟩, by simpa using hc⟩
    · have hsr : List.Sorted (fun a b : ZEntry => b.score ≤ a.score)
          (zrevrange (rs.zsets u)) := List.sorted_insertionSort _ _
      have hmetas : List.Pairwise
          (fun ma mb : Meta => mb.last_modified ≤ ma.last_modified)
          (okMetas (zrevrange (rs.zsets u))) := by
        unfold okMetas
        rw [List.pairwise_filterMap]
        apply List.Pairwise.imp_of_mem ?_ hsr
        intro a b ha hb hab x hx y hy
        obtain ⟨ma2, hva, hsa⟩ := hwfr a ha
        obtain ⟨mb2, hvb, hsb⟩ := hwfr b hb
        rw [hva] at hx
        rw [hvb] at hy
        simp only [Option.mem_def, Option.some.injEq] at hx hy
        subst hx
        subst hy
        rw [← hsa, ← hsb]
        exact hab
      exact (hmetas.filter _).map _ (fun a b h => h)
    · intro p hp
      obtain ⟨m, hm, hfm⟩ := List.mem_map.mp hp
      rw [← hfm]
      rfl

/-- Witness for c7_list_retention: with days = 7, a conversation created 8 days
ago (at 308800, now = 1000000) is excluded and one created 1 hour ago
(at 996400) is included. -/
theorem c7_witness :
    ("new", metaDoc ⟨"u", "t", "m", 996400, 996400⟩)
      ∈ PostgreSQLBackend.list_conversations 1000000
        ⟨[("old", ⟨"u", "t", "m", 308800, 308800⟩),
          ("new", ⟨"u", "t", "m", 996400, 996400⟩)], []⟩ "u" 7
    ∧ ¬ (("old", metaDoc ⟨"u", "t", "m", 308800, 308800⟩)
      ∈ PostgreSQLBackend.list_conversations 1000000
        ⟨[("old", ⟨"u", "t", "m", 308800, 308800⟩),
          ("new", ⟨"u", "t", "m", 996400, 996400⟩)], []⟩ "u" 7) := by
  have h := c7_list_retention 1000000 7
    ⟨[("old", ⟨"u", "t", "m", 308800, 308800⟩),
      ("new", ⟨"u", "t", "m", 996400, 996400⟩)], []⟩ "u"
    ⟨false, fun x => if x = "u"
        then [⟨MetaVal.ok ⟨"cc", "tc", "mc", 996400, 996400⟩, 996400⟩] else [],
      fun _ => []⟩
    rfl
    (by
      intro e he
      have he2 : e ∈ [(⟨MetaVal.ok ⟨"cc", "tc", "mc", 996400, 996400⟩, 996400⟩ : ZEntry)] := he
      rw [List.mem_singleton.mp he2]
      exact ⟨⟨"cc", "tc", "mc", 996400, 996400⟩, rfl, rfl⟩)
    (by decide)
  constructor
  · exact (h.1 "new" (metaDoc ⟨"u", "t", "m", 996400, 996400⟩)).mpr
      ⟨⟨"u", "t", "m", 996400, 996400⟩, by decide, rfl, by decide, rfl⟩
  · intro hmem
    obtain ⟨r, hr, hu2, hc, hd⟩ :=
      (h.1 "old" (metaDoc ⟨"u", "t", "m", 308800, 308800⟩)).mp hmem
    rcases List.mem_cons.mp hr with h1 | h1
    · injection h1 with hk hv
      rw [hv] at hc
      exact absurd hc (by decide)
    · have h2 := List.mem_singleton.mp h1
      injection h2 with hk hv
      exact absurd hk (by decide)

/-- C6 (amended): under a connectivity failure (redis.RedisError, the failing
flag) every cache step degrades to a miss or no-op and all four redis-mode
facade operations complete with exactly the relational backends result and an
untouched cache. -/
theorem c6_redis_error_degrades (now history_days : Int) (s : St) (cid u : String) (d : Doc)
    (hfail : s.rs.failing = true) :
    ChatHistoryManager.list_conversations_redis now history_days s u
      = .ok (PostgreSQLBackend.list_conversations now s.pg u history_days, s)
    ∧ ChatHistoryManager.get_conversation_redis s cid u
      = .ok (PostgreSQLBackend.get_conversation s.pg cid u, s)
    ∧ ChatHistoryManager.save_conversation_redis s cid u d
      = .ok ⟨PostgreSQLBackend.save_conversation s.pg cid u d, s.rs⟩
    ∧ ChatHistoryManager.delete_conversation_redis s cid u
      = .ok ⟨PostgreSQLBackend.delete_conversation s.pg cid u, s.rs⟩ := by
  refine ⟨?_, ?_, ?_, ?_⟩
  · unfold ChatHistoryManager.list_conversations_redis RedisBackend.get_conversations_list
      RedisBackend.set_conversations_list
    rw [hfail]
    rfl
  · unfold ChatHistoryManager.get_conversation_redis RedisBackend.get_conversation_messages
      RedisBackend.set_conversation_messages
    rw [hfail]
    cases hpg : PostgreSQLBackend.get_conversation s.pg cid u with
    | none => rfl
    | some d0 => rfl
  · have hstep : ChatHistoryManager.save_message_cache_step s.rs cid d = s.rs := by
      unfold ChatHistoryManager.save_message_cache_step
      rw [hfail]
      rfl
    unfold ChatHistoryManager.save_conversation_redis RedisBackend.update_conversation_metadata
    rw [hfail]
    exact congrArg
      (fun rs => (Except.ok ⟨PostgreSQLBackend.save_conversation s.pg cid u d, rs⟩ :
        Except PyErr St)) hstep
  · unfold ChatHistoryManager.delete_conversation_redis RedisBackend.delete_conversation_cache
    rw [hfail]
    rfl

/-- Witness for c6_redis_error_degrades on a concrete failing cache and a
one-conversation relational store. -/
theorem c6_witness :
    ChatHistoryManager.list_conversations_redis 1000000 7
      ⟨⟨[("c", ⟨"u", "t", "m", 999000, 999000⟩)], []⟩,
        ⟨true, fun _ => [], fun _ => []⟩⟩ "u"
      = .ok (PostgreSQLBackend.list_conversations 1000000
          ⟨[("c", ⟨"u", "t", "m", 999000, 999000⟩)], []⟩ "u" 7,
        ⟨⟨[("c", ⟨"u", "t", "m", 999000, 999000⟩)], []⟩,
          ⟨true, fun _ => [], fun _ => []⟩⟩)
    ∧ ChatHistoryManager.get_conversation_redis
      ⟨⟨[("c", ⟨"u", "t", "m", 999000, 999000⟩)], []⟩,
        ⟨true, fun _ => [], fun _ => []⟩⟩ "c" "u"
      = .ok (PostgreSQLBackend.get_conversation
          ⟨[("c", ⟨"u", "t", "m", 999000, 999000⟩)], []⟩ "c" "u",
        ⟨⟨[("c", ⟨"u", "t", "m", 999000, 999000⟩)], []⟩,
          ⟨true, fun _ => [], fun _ => []⟩⟩) :=
  ⟨(c6_redis_error_degrades 1000000 7
      ⟨⟨[("c", ⟨"u", "t", "m", 999000, 999000⟩)], []⟩,
        ⟨true, fun _ => [], fun _ => []⟩⟩ "c" "u" ⟨"t", "m", [], 0, 0⟩ rfl).1,
   (c6_redis_error_degrades 1000000 7
      ⟨⟨[("c", ⟨"u", "t", "m", 999000, 999000⟩)], []⟩,
        ⟨true, fun _ => [], fun _ => []⟩⟩ "c" "u" ⟨"t", "m", [], 0, 0⟩ rfl).2.1⟩

/-- Counterexample to C6 as stated: a deserialization failure on a cached
value is not caught (the except clauses cover only redis.RedisError), so with
one corrupt member in the users sorted set the facades list raises
json.JSONDecodeError to the caller instead of completing with the relational
backends result. -/
theorem c6_counterexample :
    ChatHistoryManager.list_conversations_redis 0 7
      ⟨⟨[], []⟩, ⟨false, fun _ => [⟨MetaVal.corrupt, 0⟩], fun _ => []⟩⟩ "u"
      = .error PyErr.jsonDecodeError := by
  rfl

/-- C5 (amended): the postgres and redis strategies do expose the same list
results: with a cold cache (empty user key) the redis-mode listing returns
exactly the postgres-mode listing.  (The flat-file strategy observably
differs, see the counterexample: full documents, no retention window, id
order.) -/
theorem c5_relational_list_agree (now history_days : Int) (s : St) (u : String)
    (hcold : s.rs.zsets u = []) :
    Except.map Prod.fst (ChatHistoryManager.list_conversations_redis now history_days s u)
      = .ok (ChatHistoryManager.list_conversations_postgres now history_days s.pg u) := by
  unfold ChatHistoryManager.list_conversations_redis RedisBackend.get_conversations_list
    ChatHistoryManager.list_conversations_postgres
  cases hf : s.rs.failing with
  | true => rfl
  | false =>
      rw [hcold]
      rfl

/-- Witness for c5_relational_list_agree on a concrete store with a cold
cache. -/
theorem c5_witness :
    Except.map Prod.fst (ChatHistoryManager.list_conversations_redis 1000000 7
      ⟨⟨[("c1", ⟨"u", "t", "m", 990000, 995000⟩)], [⟨"c1", 0, "user", "hi", 995000⟩]⟩,
        ⟨false, fun _ => [], fun _ => []⟩⟩ "u")
      = .ok (ChatHistoryManager.list_conversations_postgres 1000000 7
          ⟨[("c1", ⟨"u", "t", "m", 990000, 995000⟩)], [⟨"c1", 0, "user", "hi", 995000⟩]⟩ "u") :=
  c5_relational_list_agree 1000000 7
    ⟨⟨[("c1", ⟨"u", "t", "m", 990000, 995000⟩)], [⟨"c1", 0, "user", "hi", 995000⟩]⟩,
      ⟨false, fun _ => [], fun _ => []⟩⟩ "u" rfl

/-- Counterexample to C5 as stated: for the same stored conversation (id c1,
one message, created 990000, modified 995000) the flat-file listing returns
the full document with its message while the relational listing returns a
metadata-only document, so the strategies list results are not identical. -/
theorem c5_counterexample :
    ChatHistoryManager.list_conversations_local
        [("c1.json", FileVal.good ⟨"t", "m", [⟨"user", "hi", 995000⟩], 990000, 995000⟩)]
      ≠ ChatHistoryManager.list_conversations_postgres 1000000 7
          ⟨[("c1", ⟨"u", "t", "m", 990000, 995000⟩)], [⟨"c1", 0, "user", "hi", 995000⟩]⟩ "u" := by
  decide

theorem range'_append_one (s m n : Nat) :
    List.range' s m ++ List.range' (s + m) n = List.range' s (m + n) := by
  have h := List.range'_append s m n 1
  rw [Nat.one_mul] at h
  rw [Nat.add_comm m n]
  exact h

theorem map_seq_numberFrom (ms : List Msg) : ∀ n : Nat,
    (numberFrom n ms).map (fun c => c.sequence_number) = List.range' n ms.length := by
  induction ms with
  | nil => intro n; rfl
  | cons m rest ih =>
      intro n
      rw [numberFrom, List.map_cons, ih (n + 1), List.length_cons,
        List.range'_succ n rest.length 1]

theorem length_numberFrom (ms : List Msg) : ∀ n : Nat, (numberFrom n ms).length = ms.length := by
  induction ms with
  | nil => intro n; rfl
  | cons m rest ih => intro n; rw [numberFrom, List.length_cons, List.length_cons, ih]

theorem numberFrom_append (xs ys : List Msg) : ∀ n : Nat,
    numberFrom n (xs ++ ys) = numberFrom n xs ++ numberFrom (n + xs.length) ys := by
  induction xs with
  | nil => intro n; simp [numberFrom]
  | cons x rest ih =>
      intro n
      rw [List.cons_append, numberFrom, numberFrom, ih (n + 1), List.length_cons]
      simp [Nat.add_assoc, Nat.add_comm 1 rest.length]

theorem map_seq_seqRowsFrom (cid : String) (ms : List Msg) : ∀ n : Nat,
    (seqRowsFrom cid n ms).map (fun m => m.sequence_number) = List.range' n ms.length := by
  induction ms with
  | nil => intro n; rfl
  | cons m rest ih =>
      intro n
      rw [seqRowsFrom, List.map_cons, ih (n + 1), List.length_cons,
        List.range'_succ n rest.length 1]

theorem updFn_self {α : Type} (f : String → α) (k : String) (v : α) : updFn f k v k = v := by
  simp [updFn]

theorem updFn_ne {α : Type} (f : String → α) (k : String) (v : α) (x : String) (h : x ≠ k) :
    updFn f k v x = f x := by
  simp [updFn, h]

theorem findMeta_ok_of_wf (l : List ZEntry) (cid : String)
    (h : ∀ e ∈ l, ∃ m, e.val = MetaVal.ok m) : ∃ o, findMeta l cid = .ok o := by
  induction l with
  | nil => exact ⟨none, rfl⟩
  | cons e rest ih =>
      obtain ⟨m, hm⟩ := h e (by simp)
      rcases e with ⟨v, sc⟩
      have hv : v = MetaVal.ok m := hm
      subst hv
      by_cases hc : m.conversation_id = cid
      · exact ⟨some m, by simp [findMeta, hc]⟩
      · obtain ⟨o, ho⟩ := ih (fun x hx => h x (by simp [hx]))
        exact ⟨o, by simp [findMeta, hc, ho]⟩

theorem update_meta_ok (st : RedisSt) (u cid : String) (d : Doc)
    (hfail : st.failing = false) (hwf : ∀ e ∈ st.zsets u, ∃ m, e.val = MetaVal.ok m) :
    ∃ z, RedisBackend.update_conversation_metadata st u cid d
        = .ok (⟨st.failing, updFn st.zsets u z, st.lists⟩, true) := by
  obtain ⟨o, ho⟩ := findMeta_ok_of_wf (zrevrange (st.zsets u)) cid
    (fun e he => hwf e ((List.perm_insertionSort _ _).mem_iff.mp he))
  cases o with
  | some m =>
      refine ⟨zadd ((st.zsets u).filter (fun e => !(e.val == MetaVal.ok m)))
        ⟨.ok (metaOf cid d), d.last_modified⟩, ?_⟩
      unfold RedisBackend.update_conversation_metadata
      rw [hfail, ho]
      rfl
  | none =>
      refine ⟨zadd (st.zsets u) ⟨.ok (metaOf cid d), d.last_modified⟩, ?_⟩
      unfold RedisBackend.update_conversation_metadata
      rw [hfail, ho]
      rfl

theorem save_step_seqs (st : RedisSt) (cid : String) (d : Doc) (k : Nat) (pre : List CMsg)
    (hfail : st.failing = false)
    (hlist : st.lists cid = pre.map MsgVal.ok)
    (hseq : pre.map (fun c => c.sequence_number) = List.range k)
    (hk : k ≤ d.messages.length) :
    ∃ post : List CMsg,
      (ChatHistoryManager.save_message_cache_step st cid d).lists cid = post.map MsgVal.ok
      ∧ post.map (fun c => c.sequence_number) = List.range d.messages.length := by
  have hlenpre : pre.length = k := by
    have h := congrArg List.length hseq
    simpa using h
  have hlen : (st.lists cid).length = k := by
    rw [hlist, List.length_map, hlenpre]
  unfold ChatHistoryManager.save_message_cache_step
  rw [hfail, hlen]
  by_cases hd2 : d.messages.length = k
  · have hdrop : d.messages.drop k = [] := List.drop_eq_nil_of_le (le_of_eq hd2)
    rw [hdrop]
    by_cases hk0 : k = 0
    · subst hk0
      refine ⟨numberFrom 0 d.messages, ?_, ?_⟩
      · simp [RedisBackend.set_conversation_messages, hfail, updFn_self]
      · rw [map_seq_numberFrom, ← List.range_eq_range']
    · refine ⟨pre, ?_, ?_⟩
      · simp [hk0, hlist]
      · rw [hseq, hd2]
  · have hlt : k < d.messages.length := lt_of_le_of_ne hk (fun h => hd2 h.symm)
    have hdne : d.messages.drop k ≠ [] := by
      have hl := List.length_drop k d.messages
      intro h0
      rw [h0] at hl
      simp at hl
      omega
    have hie : (d.messages.drop k).isEmpty = false := by simpa using hdne
    refine ⟨pre ++ numberFrom k (d.messages.drop k), ?_, ?_⟩
    · simp [hie, RedisBackend.append_messages, hfail, updFn_self, hlist, List.map_append]
    · rw [List.map_append, hseq, map_seq_numberFrom, List.length_drop, List.range_eq_range']
      have hsum : k + (d.messages.length - k) = d.messages.length := Nat.add_sub_cancel' hk
      have h2 := range'_append_one 0 k (d.messages.length - k)
      rw [Nat.zero_add] at h2
      rw [h2, hsum]
      exact (List.range_eq_range' _).symm

/-- C2 (amended): after every relational save the message rows of the
conversation carry sequence numbers exactly 0..n-1 (n the saved documents
message count); the cached message list carries 0..n-1 as well provided the
previously cached list was numbered 0..k-1 with k at most n - on a shrinking
re-save (k greater than n) the cache path appends nothing and keeps its k
entries, so its numbering stays 0..k-1, not 0..n-1. -/
theorem c2_sequence_numbers (s : St) (cid u : String) (d : Doc) (k : Nat) (pre : List CMsg)
    (hfail : s.rs.failing = false)
    (hwfz : ∀ e ∈ s.rs.zsets u, ∃ m, e.val = MetaVal.ok m)
    (hlist : s.rs.lists cid = pre.map MsgVal.ok)
    (hseq : pre.map (fun c => c.sequence_number) = List.range k)
    (hk : k ≤ d.messages.length) :
    ∃ s2, ChatHistoryManager.save_conversation_redis s cid u d = .ok s2
      ∧ (s2.pg.msgs.filter (fun m => m.conversation_id == cid)).map
          (fun m => m.sequence_number) = List.range d.messages.length
      ∧ ∃ post : List CMsg, s2.rs.lists cid = post.map MsgVal.ok
          ∧ post.map (fun c => c.sequence_number) = List.range d.messages.length := by
  obtain ⟨z, hz⟩ := update_meta_ok s.rs u cid d hfail hwfz
  obtain ⟨post, hpost1, hpost2⟩ := save_step_seqs
    ⟨s.rs.failing, updFn s.rs.zsets u z, s.rs.lists⟩ cid d k pre hfail hlist hseq hk
  refine ⟨⟨PostgreSQLBackend.save_conversation s.pg cid u d,
      ChatHistoryManager.save_message_cache_step
        ⟨s.rs.failing, updFn s.rs.zsets u z, s.rs.lists⟩ cid d⟩, ?_, ?_, post, hpost1, hpost2⟩
  · unfold ChatHistoryManager.save_conversation_redis
    rw [hz]
    rfl
  · show ((PostgreSQLBackend.save_conversation s.pg cid u d).msgs.filter
        (fun m => m.conversation_id == cid)).map (fun m => m.sequence_number)
      = List.range d.messages.length
    rw [msgs_filter_save, map_seq_seqRowsFrom, ← List.range_eq_range']

/-- Witness for c2_sequence_numbers: first save of a one-message document into
an empty store and cache. -/
theorem c2_witness :
    ∃ s2, ChatHistoryManager.save_conversation_redis
        ⟨⟨[], []⟩, ⟨false, fun _ => [], fun _ => []⟩⟩ "c" "u"
        ⟨"t", "g", [⟨"user", "hi", 1⟩], 0, 1⟩ = .ok s2
      ∧ (s2.pg.msgs.filter (fun m => m.conversation_id == "c")).map
          (fun m => m.sequence_number) = List.range 1
      ∧ ∃ post : List CMsg, s2.rs.lists "c" = post.map MsgVal.ok
          ∧ post.map (fun c => c.sequence_number) = List.range 1 :=
  c2_sequence_numbers ⟨⟨[], []⟩, ⟨false, fun _ => [], fun _ => []⟩⟩ "c" "u"
    ⟨"t", "g", [⟨"user", "hi", 1⟩], 0, 1⟩ 0 [] rfl
    (by intro e he; simp at he) rfl rfl (by decide)

/-- Counterexample to C2 as stated: save a two-message document and then
re-save the conversation with a one-message document; the cached message list
still holds sequence numbers 0 and 1 while the saved documents message count
is n = 1, so the cached numbering is not 0..n-1. -/
theorem c2_counterexample :
    Except.map (fun s2 : St => (s2.rs.lists "c").map
        (fun v => match v with
          | MsgVal.ok c => some c.sequence_number
          | MsgVal.corrupt => none))
      (do
        let s1 ← ChatHistoryManager.save_conversation_redis
          ⟨⟨[], []⟩, ⟨false, fun _ => [], fun _ => []⟩⟩ "c" "u"
          ⟨"t", "g", [⟨"user", "hi", 1⟩, ⟨"assistant", "yo", 2⟩], 0, 2⟩
        ChatHistoryManager.save_conversation_redis s1 "c" "u"
          ⟨"t", "g", [⟨"user", "hi", 1⟩], 0, 3⟩)
      = .ok [some 0, some 1]
    ∧ [some 0, some 1] ≠ (List.range 1).map some := by
  constructor
  · rfl
  · decide

theorem parseAllMsgs_map_ok (l : List CMsg) : parseAllMsgs (l.map MsgVal.ok) = .ok l := by
  induction l with
  | nil => rfl
  | cons c rest ih => rw [List.map_cons, parseAllMsgs, ih]; rfl

theorem findMeta_some_elim (l : List ZEntry) (cid : String) (m : Meta)
    (h : findMeta l cid = .ok (some m)) :
    (∃ sc, (⟨MetaVal.ok m, sc⟩ : ZEntry) ∈ l) ∧ m.conversation_id = cid := by
  induction l with
  | nil => exact absurd h (by simp [findMeta])
  | cons e rest ih =>
      rcases e with ⟨v, sc⟩
      cases v with
      | corrupt => exact absurd h (by simp [findMeta])
      | ok m0 =>
          by_cases hc : m0.conversation_id = cid
          · have h0 : m0 = m := by
              have := h
              simp [findMeta, hc] at this
              exact this
            subst h0
            exact ⟨⟨sc, by simp⟩, hc⟩
          · have h2 : findMeta rest cid = .ok (some m) := by
              simpa [findMeta, hc] using h
            obtain ⟨⟨sc2, hmem⟩, hcid⟩ := ih h2
            exact ⟨⟨sc2, by simp [hmem]⟩, hcid⟩

theorem findMeta_none_elim (l : List ZEntry) (cid : String)
    (h : findMeta l cid = .ok none) :
    ∀ e ∈ l, ∀ m2 : Meta, e.val = MetaVal.ok m2 → m2.conversation_id ≠ cid := by
  induction l with
  | nil => intro e he; exact absurd he (by simp)
  | cons e0 rest ih =>
      rcases e0 with ⟨v, sc⟩
      cases v with
      | corrupt => exact absurd h (by simp [findMeta])
      | ok m0 =>
          by_cases hc : m0.conversation_id = cid
          · exact absurd h (by simp [findMeta, hc])
          · intro e he m2 hv hcid
            rcases List.mem_cons.mp he with h1 | h1
            · rw [h1] at hv
              have : m0 = m2 := MetaVal.ok.inj hv
              exact hc (this ▸ hcid)
            · exact ih (by simpa [findMeta, hc] using h) e h1 m2 hv hcid

theorem findMeta_finds (l : List ZEntry) (cid : String) (tm : Meta)
    (hwf : ∀ e ∈ l, ∃ m, e.val = MetaVal.ok m)
    (hmem : ∃ sc, (⟨MetaVal.ok tm, sc⟩ : ZEntry) ∈ l)
    (htm : tm.conversation_id = cid)
    (huni : ∀ e ∈ l, ∀ m : Meta, e.val = MetaVal.ok m → m.conversation_id = cid → m = tm) :
    findMeta l cid = .ok (some tm) := by
  induction l with
  | nil =>
      obtain ⟨sc, hsc⟩ := hmem
      exact absurd hsc (by simp)
  | cons e0 rest ih =>
      obtain ⟨m0, hm0⟩ := hwf e0 (by simp)
      rcases e0 with ⟨v, sc0⟩
      have hv : v = MetaVal.ok m0 := hm0
      subst hv
      by_cases hc : m0.conversation_id = cid
      · have heq : m0 = tm := huni ⟨MetaVal.ok m0, sc0⟩ (by simp) m0 rfl hc
        simp [findMeta, heq, htm]
      · obtain ⟨sc, hsc⟩ := hmem
        rcases List.mem_cons.mp hsc with h1 | h1
        · have : MetaVal.ok tm = MetaVal.ok m0 := congrArg ZEntry.val h1
          exact absurd (htm ▸ (MetaVal.ok.inj this) ▸ htm) (by
            rw [← MetaVal.ok.inj this] at hc
            exact fun _ => hc htm)
        · have hres := ih (fun x hx => hwf x (by simp [hx])) ⟨sc, h1⟩
            (fun x hx m hv2 hc2 => huni x (by simp [hx]) m hv2 hc2)
          simp [findMeta, hc, hres]

theorem zadd_of_not_mem (l : List ZEntry) (e : ZEntry)
    (h : ∀ x ∈ l, x.val ≠ e.val) : zadd l e = l ++ [e] := by
  unfold zadd
  have hany : l.any (fun x => x.val == e.val) = false := by
    rw [List.any_eq_false]
    intro x hx
    simpa using h x hx
  rw [hany]
  simp

theorem update_meta_spec (st : RedisSt) (u cid : String) (d : Doc)
    (hfail : st.failing = false)
    (hwf : ∀ e ∈ st.zsets u, ∃ m, e.val = MetaVal.ok m)
    (huniq : ∀ e1 ∈ st.zsets u, ∀ e2 ∈ st.zsets u, ∀ m1 m2 : Meta,
        e1.val = MetaVal.ok m1 → e2.val = MetaVal.ok m2 →
        m1.conversation_id = cid → m2.conversation_id = cid → e1 = e2) :
    ∃ z, RedisBackend.update_conversation_metadata st u cid d
        = .ok (⟨st.failing, updFn st.zsets u z, st.lists⟩, true)
      ∧ (∀ e ∈ z, ∃ m, e.val = MetaVal.ok m)
      ∧ (⟨MetaVal.ok (metaOf cid d), d.last_modified⟩ : ZEntry) ∈ z
      ∧ (∀ e ∈ z, ∀ m : Meta, e.val = MetaVal.ok m → m.conversation_id = cid →
          e = ⟨MetaVal.ok (metaOf cid d), d.last_modified⟩) := by
  have hperm : List.Perm (zrevrange (st.zsets u)) (st.zsets u) := List.perm_insertionSort _ _
  obtain ⟨o, ho⟩ := findMeta_ok_of_wf (zrevrange (st.zsets u)) cid
    (fun e he => hwf e (hperm.mem_iff.mp he))
  cases o with
  | some m =>
      obtain ⟨⟨sc0, hmem0⟩, hcid0⟩ := findMeta_some_elim _ cid m ho
      have hmem0z : (⟨MetaVal.ok m, sc0⟩ : ZEntry) ∈ st.zsets u := hperm.mem_iff.mp hmem0
      have hz1nocid : ∀ e ∈ (st.zsets u).filter (fun e => !(e.val == MetaVal.ok m)),
          ∀ m2 : Meta, e.val = MetaVal.ok m2 → m2.conversation_id ≠ cid := by
        intro e he m2 hv hc2
        obtain ⟨hez, hep⟩ := List.mem_filter.mp he
        have : e = ⟨MetaVal.ok m, sc0⟩ :=
          huniq e hez ⟨MetaVal.ok m, sc0⟩ hmem0z m2 m hv rfl hc2 hcid0
        rw [this] at hep
        simp at hep
      refine ⟨zadd ((st.zsets u).filter (fun e => !(e.val == MetaVal.ok m)))
        ⟨.ok (metaOf cid d), d.last_modified⟩, ?_, ?_, ?_, ?_⟩
      · unfold RedisBackend.update_conversation_metadata
        rw [hfail, ho]
        rfl
      · intro e he
        rw [zadd_of_not_mem _ _ (fun x hx hv =>
          hz1nocid x hx (metaOf cid d) hv rfl)] at he
        rcases List.mem_append.mp he with h1 | h1
        · exact hwf e (List.mem_filter.mp h1).1
        · rw [List.mem_singleton.mp h1]
          exact ⟨metaOf cid d, rfl⟩
      · rw [zadd_of_not_mem _ _ (fun x hx hv =>
          hz1nocid x hx (metaOf cid d) hv rfl)]
        simp
      · intro e he m2 hv hc2
        rw [zadd_of_not_mem _ _ (fun x hx hv2 =>
          hz1nocid x hx (metaOf cid d) hv2 rfl)] at he
        rcases List.mem_append.mp he with h1 | h1
        · exact absurd hc2 (hz1nocid e h1 m2 hv)
        · exact List.mem_singleton.mp h1
  | none =>
      have hnocid : ∀ e ∈ st.zsets u, ∀ m2 : Meta,
          e.val = MetaVal.ok m2 → m2.conversation_id ≠ cid := by
        intro e he m2 hv hc2
        exact findMeta_none_elim _ cid ho e (hperm.mem_iff.mpr he) m2 hv hc2
      refine ⟨zadd (st.zsets u) ⟨.ok (metaOf cid d), d.last_modified⟩, ?_, ?_, ?_, ?_⟩
      · unfold RedisBackend.update_conversation_metadata
        rw [hfail, ho]
        rfl
      · intro e he
        rw [zadd_of_not_mem _ _ (fun x hx hv =>
          hnocid x hx (metaOf cid d) hv rfl)] at he
        rcases List.mem_append.mp he with h1 | h1
        · exact hwf e h1
        · rw [List.mem_singleton.mp h1]
          exact ⟨metaOf cid d, rfl⟩
      · rw [zadd_of_not_mem _ _ (fun x hx hv =>
          hnocid x hx (metaOf cid d) hv rfl)]
        simp
      · intro e he m2 hv hc2
        rw [zadd_of_not_mem _ _ (fun x hx hv2 =>
          hnocid x hx (metaOf cid d) hv2 rfl)] at he
        rcases List.mem_append.mp he with h1 | h1
        · exact absurd hc2 (hnocid e h1 m2 hv)
        · exact List.mem_singleton.mp h1

theorem le_seq_seqRowsFrom (cid : String) (ms : List Msg) : ∀ (n : Nat) (b : MsgRow),
    b ∈ seqRowsFrom cid n ms → n ≤ b.sequence_number := by
  induction ms with
  | nil => intro n b hb; exact absurd hb (by simp [seqRowsFrom])
  | cons m rest ih =>
      intro n b hb
      rw [seqRowsFrom] at hb
      rcases List.mem_cons.mp hb with h1 | h1
      · rw [h1]
      · exact le_trans (Nat.le_succ n) (ih (n + 1) b h1)

theorem sorted_seqRowsFrom (cid : String) (ms : List Msg) : ∀ n : Nat,
    List.Sorted (fun a b : MsgRow => a.sequence_number ≤ b.sequence_number)
      (seqRowsFrom cid n ms) := by
  induction ms with
  | nil => intro n; simp [seqRowsFrom]
  | cons m rest ih =>
      intro n
      rw [seqRowsFrom, List.sorted_cons]
      exact ⟨fun b hb => le_trans (Nat.le_succ n) (le_seq_seqRowsFrom cid rest (n + 1) b hb),
        ih (n + 1)⟩

theorem ordered_msgs_save (s : PGSt) (cid u : String) (d : Doc) :
    PostgreSQLBackend.orderedMsgRows (PostgreSQLBackend.save_conversation s cid u d) cid
      = seqRowsFrom cid 0 d.messages := by
  unfold PostgreSQLBackend.orderedMsgRows
  rw [show (PostgreSQLBackend.save_conversation s cid u d).msgs.filter
      (fun m => m.conversation_id == cid) = seqRowsFrom cid 0 d.messages
    from msgs_filter_save s cid u d]
  exact List.Sorted.insertionSort_eq (sorted_seqRowsFrom cid d.messages 0)

theorem map_msgRow_seqRows (cid : String) (ms : List Msg) : ∀ n : Nat,
    (seqRowsFrom cid n ms).map msgRowToRMsg
      = ms.map (fun m => (⟨none, m.role, m.content, m.time⟩ : RMsg)) := by
  induction ms with
  | nil => intro n; rfl
  | cons m rest ih =>
      intro n
      rw [seqRowsFrom, List.map_cons, List.map_cons, ih (n + 1)]
      rfl

theorem strip_map_numberFrom (ms : List Msg) : ∀ n : Nat,
    ((numberFrom n ms).map cmsgToRMsg).map stripSeq
      = ms.map (fun m => (⟨none, m.role, m.content, m.time⟩ : RMsg)) := by
  induction ms with
  | nil => intro n; rfl
  | cons m rest ih =>
      intro n
      rw [numberFrom, List.map_cons, List.map_cons, List.map_cons, ih (n + 1)]
      rfl

theorem find?_combined_of_first (l : List (String × ConvRow)) (cid w : String)
    (p : String × ConvRow)
    (hp : l.find? (fun e => e.1 == cid) = some p)
    (hw : p.2.user_client_id = w) :
    l.find? (fun e => e.1 == cid && e.2.user_client_id == w) = some p := by
  induction l with
  | nil => exact absurd hp (by simp)
  | cons e rest ih =>
      by_cases hb : e.1 = cid
      · rw [List.find?_cons_of_pos _ (by simpa using hb)] at hp
        have hep := Option.some.inj hp
        subst hep
        exact List.find?_cons_of_pos _ (by simp [hb, hw])
      · rw [List.find?_cons_of_neg _ (by simpa using hb)] at hp
        rw [List.find?_cons_of_neg _ (by simp [hb])]
        exact ih hp

theorem pg_get_after_save (s : PGSt) (cid u : String) (d : Doc)
    (hpg : ∀ rr, pgFind s cid = some rr →
      rr.user_client_id = u ∧ rr.created_at = d.created_at) :
    PostgreSQLBackend.get_conversation (PostgreSQLBackend.save_conversation s cid u d) cid u
      = some ⟨d.title, d.model,
          d.messages.map (fun m => (⟨none, m.role, m.content, m.time⟩ : RMsg)),
          d.created_at, d.last_modified⟩ := by
  have hmsgs := ordered_msgs_save s cid u d
  cases hf : s.convs.find? (fun e => e.1 == cid) with
  | none =>
      have h1 := find?_upsertRow_of_none cid u d s.convs hf
      have h2 := find?_combined_of_first _ cid u _ h1 rfl
      unfold PostgreSQLBackend.get_conversation
      rw [show (PostgreSQLBackend.save_conversation s cid u d).convs
          = upsertRow cid u d s.convs from rfl, h2, hmsgs, map_msgRow_seqRows]
      rfl
  | some p =>
      have hpr : p.2.user_client_id = u ∧ p.2.created_at = d.created_at := by
        apply hpg p.2
        unfold pgFind
        rw [hf]
        rfl
      have h1 := find?_upsertRow_of_some cid u d s.convs p hf
      have h2 := find?_combined_of_first _ cid u _ h1 hpr.1
      unfold PostgreSQLBackend.get_conversation
      rw [show (PostgreSQLBackend.save_conversation s cid u d).convs
          = upsertRow cid u d s.convs from rfl, h2, hmsgs, map_msgRow_seqRows]
      unfold updConv
      rw [hpr.2]

theorem append_messages_fields (st : RedisSt) (cid : String) (nm : List Msg) (n : Nat)
    (hfail : st.failing = false) :
    (RedisBackend.append_messages st cid nm n).1
      = ⟨st.failing, st.zsets,
          updFn st.lists cid (st.lists cid ++ (numberFrom n nm).map MsgVal.ok)⟩ := by
  unfold RedisBackend.append_messages
  rw [hfail]
  rfl

theorem set_messages_fields (st : RedisSt) (cid : String) (ms : List Msg)
    (hfail : st.failing = false) :
    (RedisBackend.set_conversation_messages st cid ms).1
      = ⟨st.failing, st.zsets, updFn st.lists cid ((numberFrom 0 ms).map MsgVal.ok)⟩ := by
  unfold RedisBackend.set_conversation_messages
  rw [hfail]
  rfl

theorem save_step_lists (st : RedisSt) (cid : String) (d : Doc) (k : Nat)
    (hfail : st.failing = false)
    (hlist : st.lists cid = (numberFrom 0 (d.messages.take k)).map MsgVal.ok)
    (hk : k ≤ d.messages.length) :
    (ChatHistoryManager.save_message_cache_step st cid d).lists cid
        = (numberFrom 0 d.messages).map MsgVal.ok
    ∧ (ChatHistoryManager.save_message_cache_step st cid d).zsets = st.zsets
    ∧ (ChatHistoryManager.save_message_cache_step st cid d).failing = false := by
  have htk : (d.messages.take k).length = k := by
    rw [List.length_take]
    exact Nat.min_eq_left hk
  have hlen : (st.lists cid).length = k := by
    rw [hlist, List.length_map, length_numberFrom, htk]
  unfold ChatHistoryManager.save_message_cache_step
  rw [hfail, hlen]
  by_cases hd2 : d.messages.length = k
  · have htake : d.messages.take k = d.messages := by
      rw [← hd2]
      exact List.take_length d.messages
    have hdrop : d.messages.drop k = [] := List.drop_eq_nil_of_le (le_of_eq hd2)
    rw [hdrop]
    by_cases hk0 : k = 0
    · subst hk0
      rw [set_messages_fields st cid d.messages hfail]
      exact ⟨updFn_self st.lists cid _, rfl, hfail⟩
    · have hkb : (k == 0) = false := by simpa using hk0
      rw [hkb]
      refine ⟨?_, rfl, hfail⟩
      show st.lists cid = (numberFrom 0 d.messages).map MsgVal.ok
      rw [hlist, htake]
  · have hlt : k < d.messages.length := lt_of_le_of_ne hk (fun h => hd2 h.symm)
    have hdne : d.messages.drop k ≠ [] := by
      have hl := List.length_drop k d.messages
      intro h0
      rw [h0] at hl
      simp at hl
      omega
    have hie : (d.messages.drop k).isEmpty = false := by simpa using hdne
    rw [hie, append_messages_fields st cid (d.messages.drop k) k hfail]
    refine ⟨?_, rfl, hfail⟩
    show updFn st.lists cid (st.lists cid ++ (numberFrom k (d.messages.drop k)).map MsgVal.ok) cid
      = (numberFrom 0 d.messages).map MsgVal.ok
    rw [updFn_self, hlist, ← List.map_append]
    have h3 := numberFrom_append (d.messages.take k) (d.messages.drop k) 0
    rw [Nat.zero_add, htk, List.take_append_drop] at h3
    rw [← h3]

theorem get_messages_hit (st : RedisSt) (cid u : String) (msgs : List CMsg) (tm : Meta)
    (hfail : st.failing = false)
    (hlist : st.lists cid = msgs.map MsgVal.ok)
    (hne : msgs ≠ [])
    (hfind : findMeta (zrevrange (st.zsets u)) cid = .ok (some tm)) :
    RedisBackend.get_conversation_messages st cid u
      = .ok (some ⟨tm.title, tm.model, msgs.map cmsgToRMsg,
          tm.created_at, tm.last_modified⟩) := by
  have hie : (msgs.map MsgVal.ok).isEmpty = false := by
    cases msgs with
    | nil => exact absurd rfl hne
    | cons a l => rfl
  unfold RedisBackend.get_conversation_messages
  rw [hfail, hlist, hie, hfind, parseAllMsgs_map_ok]
  rfl

theorem get_redis_hit (s2 : St) (cid u : String) (rd : RDoc)
    (h : RedisBackend.get_conversation_messages s2.rs cid u = .ok (some rd)) :
    ChatHistoryManager.get_conversation_redis s2 cid u = .ok (some rd, s2) := by
  unfold ChatHistoryManager.get_conversation_redis
  rw [h]
  rfl

theorem get_redis_miss (s2 : St) (cid u : String)
    (h : RedisBackend.get_conversation_messages s2.rs cid u = .ok none) :
    Except.map Prod.fst (ChatHistoryManager.get_conversation_redis s2 cid u)
      = .ok (PostgreSQLBackend.get_conversation s2.pg cid u) := by
  unfold ChatHistoryManager.get_conversation_redis
  rw [h]
  cases hpg : PostgreSQLBackend.get_conversation s2.pg cid u with
  | none => rfl
  | some d0 => rfl

/-- C1 (amended): in the redis strategy, after save_conversation a warm-cache
get_conversation agrees with a cold-cache get_conversation (cache cleared,
answered from PostgreSQL) up to the sequence_number key that cached messages
carry, provided the cache held at most a prefix of the saved documents
messages (the append-only case; k of n messages already cached), the users
cached metadata is well formed with at most one entry for the conversation,
and the stored rows created_at/owner agree with the saved document.  When the
saved message list is shorter than or diverges from the cached one the
equality fails (see the counterexample). -/
theorem c1_cache_backend_equivalence (s : St) (cid u : String) (d : Doc) (k : Nat)
    (hfail : s.rs.failing = false)
    (hwfz : ∀ e ∈ s.rs.zsets u, ∃ m, e.val = MetaVal.ok m)
    (huniq : ∀ e1 ∈ s.rs.zsets u, ∀ e2 ∈ s.rs.zsets u, ∀ m1 m2 : Meta,
        e1.val = MetaVal.ok m1 → e2.val = MetaVal.ok m2 →
        m1.conversation_id = cid → m2.conversation_id = cid → e1 = e2)
    (hlist : s.rs.lists cid = (numberFrom 0 (d.messages.take k)).map MsgVal.ok)
    (hk : k ≤ d.messages.length)
    (hpg : ∀ rr, pgFind s.pg cid = some rr →
        rr.user_client_id = u ∧ rr.created_at = d.created_at) :
    ∃ s2, ChatHistoryManager.save_conversation_redis s cid u d = .ok s2
      ∧ Except.map (Option.map stripSeqDoc)
          (Except.map Prod.fst (ChatHistoryManager.get_conversation_redis s2 cid u))
        = Except.map Prod.fst
            (ChatHistoryManager.get_conversation_redis (clearCache s2) cid u) := by
  obtain ⟨z, hz, hzok, hzmem, hzuni⟩ := update_meta_spec s.rs u cid d hfail hwfz huniq
  obtain ⟨hl2, hz2, hf2⟩ := save_step_lists ⟨s.rs.failing, updFn s.rs.zsets u z, s.rs.lists⟩
    cid d k hfail hlist hk
  refine ⟨⟨PostgreSQLBackend.save_conversation s.pg cid u d,
    ChatHistoryManager.save_message_cache_step
      ⟨s.rs.failing, updFn s.rs.zsets u z, s.rs.lists⟩ cid d⟩, ?_, ?_⟩
  · unfold ChatHistoryManager.save_conversation_redis
    rw [hz]
    rfl
  · have hpgget := pg_get_after_save s.pg cid u d hpg
    have hcoldmiss : RedisBackend.get_conversation_messages emptyRedis cid u = .ok none := rfl
    have hcold := get_redis_miss
      ⟨PostgreSQLBackend.save_conversation s.pg cid u d, emptyRedis⟩ cid u hcoldmiss
    rw [show ChatHistoryManager.get_conversation_redis
        (clearCache ⟨PostgreSQLBackend.save_conversation s.pg cid u d,
          ChatHistoryManager.save_message_cache_step
            ⟨s.rs.failing, updFn s.rs.zsets u z, s.rs.lists⟩ cid d⟩) cid u
      = ChatHistoryManager.get_conversation_redis
        ⟨PostgreSQLBackend.save_conversation s.pg cid u d, emptyRedis⟩ cid u from rfl]
    rw [hcold, hpgget]
    cases hm : d.messages with
    | nil =>
        have hwarmmiss : RedisBackend.get_conversation_messages
            (ChatHistoryManager.save_message_cache_step
              ⟨s.rs.failing, updFn s.rs.zsets u z, s.rs.lists⟩ cid d) cid u = .ok none := by
          unfold RedisBackend.get_conversation_messages
          rw [hf2, hl2, hm]
          rfl
        have hwarm := get_redis_miss
          ⟨PostgreSQLBackend.save_conversation s.pg cid u d,
            ChatHistoryManager.save_message_cache_step
              ⟨s.rs.failing, updFn s.rs.zsets u z, s.rs.lists⟩ cid d⟩ cid u hwarmmiss
        rw [hwarm, hpgget, hm]
        rfl
    | cons m0 rest =>
        have hne2 : numberFrom 0 d.messages ≠ [] := by
          rw [hm]
          simp [numberFrom]
        have hzu : (ChatHistoryManager.save_message_cache_step
            ⟨s.rs.failing, updFn s.rs.zsets u z, s.rs.lists⟩ cid d).zsets u = z := by
          rw [hz2]
          exact updFn_self s.rs.zsets u z
        have hpermz : List.Perm (zrevrange z) z := List.perm_insertionSort _ _
        have hfindz : findMeta (zrevrange ((ChatHistoryManager.save_message_cache_step
            ⟨s.rs.failing, updFn s.rs.zsets u z, s.rs.lists⟩ cid d).zsets u)) cid
            = .ok (some (metaOf cid d)) := by
          rw [hzu]
          apply findMeta_finds (zrevrange z) cid (metaOf cid d)
            (fun e he => hzok e (hpermz.mem_iff.mp he))
            ⟨d.last_modified, hpermz.mem_iff.mpr hzmem⟩
            rfl
          intro e he m hv hc
          have he2 := hpermz.mem_iff.mp he
          have heq := hzuni e he2 m hv hc
          rw [heq] at hv
          exact (MetaVal.ok.inj hv).symm
        have hwarmhit := get_messages_hit _ cid u (numberFrom 0 d.messages) (metaOf cid d)
          hf2 hl2 hne2 hfindz
        have hwarm := get_redis_hit
          ⟨PostgreSQLBackend.save_conversation s.pg cid u d,
            ChatHistoryManager.save_message_cache_step
              ⟨s.rs.failing, updFn s.rs.zsets u z, s.rs.lists⟩ cid d⟩ cid u _ hwarmhit
        rw [hwarm, ← hm]
        have hstrip : stripSeqDoc ⟨(metaOf cid d).title, (metaOf cid d).model,
            (numberFrom 0 d.messages).map cmsgToRMsg, (metaOf cid d).created_at,
            (metaOf cid d).last_modified⟩
          = ⟨d.title, d.model,
              d.messages.map (fun m => (⟨none, m.role, m.content, m.time⟩ : RMsg)),
              d.created_at, d.last_modified⟩ := by
          unfold stripSeqDoc
          rw [show (⟨(metaOf cid d).title, (metaOf cid d).model,
              (numberFrom 0 d.messages).map cmsgToRMsg, (metaOf cid d).created_at,
              (metaOf cid d).last_modified⟩ : RDoc).messages
            = (numberFrom 0 d.messages).map cmsgToRMsg from rfl]
          rw [strip_map_numberFrom]
          rfl
        show Except.ok (some (stripSeqDoc ⟨(metaOf cid d).title, (metaOf cid d).model,
            (numberFrom 0 d.messages).map cmsgToRMsg, (metaOf cid d).created_at,
            (metaOf cid d).last_modified⟩))
          = Except.ok (some (⟨d.title, d.model,
              d.messages.map (fun m => (⟨none, m.role, m.content, m.time⟩ : RMsg)),
              d.created_at, d.last_modified⟩ : RDoc))
        exact congrArg (fun x => Except.ok (some x)) hstrip

/-- Witness for c1_cache_backend_equivalence: first save of a one-message
conversation into an empty relational store with an empty cache. -/
theorem c1_witness :
    ∃ s2, ChatHistoryManager.save_conversation_redis
        ⟨⟨[], []⟩, ⟨false, fun _ => [], fun _ => []⟩⟩ "c" "u"
        ⟨"t", "g", [⟨"user", "hi", 1⟩], 0, 1⟩ = .ok s2
      ∧ Except.map (Option.map stripSeqDoc)
          (Except.map Prod.fst (ChatHistoryManager.get_conversation_redis s2 "c" "u"))
        = Except.map Prod.fst
            (ChatHistoryManager.get_conversation_redis (clearCache s2) "c" "u") :=
  c1_cache_backend_equivalence ⟨⟨[], []⟩, ⟨false, fun _ => [], fun _ => []⟩⟩ "c" "u"
    ⟨"t", "g", [⟨"user", "hi", 1⟩], 0, 1⟩ 0 rfl
    (by intro e he; simp at he)
    (by intro e1 he1; simp at he1)
    rfl (by decide)
    (by intro rr h; simp [pgFind] at h)

/-- Counterexample to C1 as stated: save a two-message document, then re-save
the same conversation with a shorter one-message document; a warm-cache get
still returns the two stale cached messages while a cold-cache get answers
one message from PostgreSQL, so the two results differ. -/
theorem c1_counterexample :
    Except.map (fun p : Option RDoc × St => p.1.map (fun rd => rd.messages.length))
      (do
        let s1 ← ChatHistoryManager.save_conversation_redis
          ⟨⟨[], []⟩, ⟨false, fun _ => [], fun _ => []⟩⟩ "c" "u"
          ⟨"t", "g", [⟨"user", "hi", 1⟩, ⟨"assistant", "yo", 2⟩], 0, 2⟩
        let s2 ← ChatHistoryManager.save_conversation_redis s1 "c" "u"
          ⟨"t", "g", [⟨"user", "hi", 1⟩], 0, 3⟩
        ChatHistoryManager.get_conversation_redis s2 "c" "u")
      = .ok (some 2)
    ∧ Except.map (fun p : Option RDoc × St => p.1.map (fun rd => rd.messages.length))
      (do
        let s1 ← ChatHistoryManager.save_conversation_redis
          ⟨⟨[], []⟩, ⟨false, fun _ => [], fun _ => []⟩⟩ "c" "u"
          ⟨"t", "g", [⟨"user", "hi", 1⟩, ⟨"assistant", "yo", 2⟩], 0, 2⟩
        let s2 ← ChatHistoryManager.save_conversation_redis s1 "c" "u"
          ⟨"t", "g", [⟨"user", "hi", 1⟩], 0, 3⟩
        ChatHistoryManager.get_conversation_redis (clearCache s2) "c" "u")
      = .ok (some 1)
    ∧ (some 2 : Option Nat) ≠ some 1 := by
  refine ⟨rfl, rfl, by decide⟩
